import Mathlib

/-!
Verification of the jaloxc lexical scanner.

This file gives a shallow embedding of the scanner of `src/scanner.rs`
together with the token data model of `src/token.rs`, and proves the
specified properties about it.

Modelling conventions:
* the Rust `Vec<char>` source buffer becomes a `List Char`, and the
  `start`/`current` cursors stay `Nat` indices, exactly as in the code;
* every fallible indexing operation (`self.source[self.current]` inside
  `advance` and `match_char`) is embedded through `Option`: the `none`
  branch is the out-of-bounds panic, and the whole scan propagates it;
* the `while` loops of the scanner become recursive functions; the main
  scan loop recurses on the explicit bound `source.length - current`
  (running out of that bound also yields `none`), and the adequacy of the
  bound is proved below, giving the termination result for the scan;
* the diagnostic stream written by `Scanner::error` (`eprintln!`) is
  embedded as an append-only list of `(line, message)` pairs carried in
  the scanner state;
* `str::parse::<f64>` is modelled at exact decimal precision by
  `parse_f64 : List Char → Option ℚ`, which on the scanner's number
  grammar (a digit run with an optional fractional digit run) returns the
  rational number the literal denotes.
-/

set_option maxHeartbeats 1600000
set_option maxRecDepth 16000

/-- Token kinds (token.rs, `enum TokenType`). -/
inductive TokenType where
  | LeftParen
  | RightParen
  | LeftBrace
  | RightBrace
  | Comma
  | Dot
  | Minus
  | Plus
  | Semicolon
  | Slash
  | Star
  | Bang
  | BangEqual
  | Equal
  | EqualEqual
  | Greater
  | GreaterEqual
  | Less
  | LessEqual
  | Identifier
  | String
  | Number
  | And
  | Class
  | Else
  | False
  | Fun
  | For
  | If
  | Nil
  | Or
  | Print
  | Return
  | Super
  | This
  | True
  | Var
  | While
  | Eof
  deriving DecidableEq

/-- Literal values (token.rs, `enum Literal`); numbers are carried at exact
decimal precision as rationals. -/
inductive Literal where
  | Number (val : ℚ)
  | Str (s : List Char)
  | Bool (b : Bool)
  | Nil
  deriving DecidableEq

/-- A scanned token (token.rs, `struct Token`). -/
structure Token where
  token_type : TokenType
  lexeme : List Char
  literal : Option Literal
  line : Nat
  deriving DecidableEq

/-- The scanner state (scanner.rs, `struct Scanner`), extended with the
diagnostic stream written by `Scanner::error`. -/
structure Scanner where
  source : List Char
  tokens : List Token
  start : Nat
  current : Nat
  line : Nat
  errors : List (Nat × String)
  deriving DecidableEq

/-- Embedding of `Scanner::new`. -/
def Scanner.new (source : List Char) : Scanner :=
  { source := source, tokens := [], start := 0, current := 0, line := 1,
    errors := [] }

/-- Embedding of `Scanner::is_at_end`. -/
def Scanner.is_at_end (s : Scanner) : Bool :=
  s.source.length ≤ s.current

/-- Embedding of `Scanner::peek`: current character, or `'\x00'` at end of input. -/
def Scanner.peek (s : Scanner) : Char :=
  if s.is_at_end then '\x00' else s.source.getD s.current '\x00'

/-- Embedding of `Scanner::peek_next`: next character, or `'\x00'` past the end. -/
def Scanner.peek_next (s : Scanner) : Char :=
  if s.source.length ≤ s.current + 1 then '\x00'
  else s.source.getD (s.current + 1) '\x00'

/-- Embedding of `Scanner::advance`: the unchecked indexing `self.source[self.current]`
is the one place the Rust code could panic, so it is embedded in `Option`,
with `none` as the out-of-bounds branch. -/
def Scanner.advance (s : Scanner) : Option (Char × Scanner) :=
  match s.source[s.current]? with
  | some c => some (c, { s with current := s.current + 1 })
  | none => none

/-- Embedding of `Scanner::match_char`: its direct indexing is guarded by the
short-circuited `is_at_end` check; the guard is kept and the access is
still embedded fallibly. -/
def Scanner.match_char (s : Scanner) (expected : Char) : Option (Bool × Scanner) :=
  if s.is_at_end then some (false, s)
  else
    match s.source[s.current]? with
    | some c =>
      if c ≠ expected then some (false, s)
      else some (true, { s with current := s.current + 1 })
    | none => none

/-- Embedding of `Scanner::add_token_with_literal`. -/
def Scanner.add_token_with_literal (s : Scanner) (token_type : TokenType)
    (literal : Option Literal) : Scanner :=
  { s with tokens :=
      s.tokens ++ [⟨token_type, (s.source.take s.current).drop s.start, literal, s.line⟩] }

/-- Embedding of `Scanner::add_token`. -/
def Scanner.add_token (s : Scanner) (token_type : TokenType) : Scanner :=
  s.add_token_with_literal token_type none

/-- Embedding of `Scanner::error`: appends one diagnostic to the stream. -/
def Scanner.error (s : Scanner) (message : String) : Scanner :=
  { s with errors := s.errors ++ [(s.line, message)] }

/-- Value of a run of decimal digits. -/
def digits_value (ds : List Char) : Nat :=
  ds.foldl (fun a c => a * 10 + (c.toNat - '0'.toNat)) 0

/-- Exact-precision model of `str::parse::<f64>` on the number grammar
matched by `Scanner::number`: a nonempty digit run with an optional `.`
followed by a nonempty digit run denotes the evident rational; anything
else fails to parse. -/
def parse_f64 (cs : List Char) : Option ℚ :=
  let ip := cs.takeWhile Char.isDigit
  if ip = [] then none
  else
    match cs.dropWhile Char.isDigit with
    | [] => some (digits_value ip)
    | '.' :: fp =>
      if fp ≠ [] ∧ fp.all Char.isDigit then
        some ((digits_value ip : ℚ) + (digits_value fp : ℚ) / (10 : ℚ) ^ fp.length)
      else none
    | _ => none

/-- Keyword table of `Scanner::identifier`. -/
def keyword_type (text : List Char) : TokenType :=
  if text = "and".toList then .And
  else if text = "class".toList then .Class
  else if text = "else".toList then .Else
  else if text = "false".toList then .False
  else if text = "fun".toList then .Fun
  else if text = "for".toList then .For
  else if text = "if".toList then .If
  else if text = "nil".toList then .Nil
  else if text = "or".toList then .Or
  else if text = "print".toList then .Print
  else if text = "return".toList then .Return
  else if text = "super".toList then .Super
  else if text = "this".toList then .This
  else if text = "true".toList then .True
  else if text = "var".toList then .Var
  else if text = "while".toList then .While
  else .Identifier

/-- Body of the `//` line-comment loop in `Scanner::scan_token`: consume
until a newline or end of input, emitting nothing. -/
def Scanner.line_comment (s : Scanner) : Option Scanner :=
  if h : s.peek ≠ '\n' ∧ s.is_at_end = false then
    match s.advance with
    | some _ => Scanner.line_comment { s with current := s.current + 1 }
    | none => none
  else some s
  termination_by s.source.length - s.current
  decreasing_by
    obtain ⟨h1, h2⟩ := h
    simp [Scanner.is_at_end] at h2
    omega

/-- Embedding of `Scanner::block_comment`, with the mutable `nesting` counter as an
explicit argument (entered at 1). -/
def Scanner.block_comment_loop (s : Scanner) (nesting : Nat) : Option Scanner :=
  if h : 0 < nesting ∧ s.is_at_end = false then
    if s.peek = '/' ∧ s.peek_next = '*' then
      match s.advance with
      | some _ =>
        match Scanner.advance { s with current := s.current + 1 } with
        | some _ =>
          Scanner.block_comment_loop { s with current := s.current + 2 } (nesting + 1)
        | none => none
      | none => none
    else if s.peek = '*' ∧ s.peek_next = '/' then
      match s.advance with
      | some _ =>
        match Scanner.advance { s with current := s.current + 1 } with
        | some _ =>
          Scanner.block_comment_loop { s with current := s.current + 2 } (nesting - 1)
        | none => none
      | none => none
    else
      match Scanner.advance
          { s with line := s.line + (if s.peek = '\n' then 1 else 0) } with
      | some _ =>
        Scanner.block_comment_loop
          { s with current := s.current + 1,
                   line := s.line + (if s.peek = '\n' then 1 else 0) } nesting
      | none => none
  else if 0 < nesting then some (s.error "Unterminated block comment")
  else some s
  termination_by s.source.length - s.current
  decreasing_by
    all_goals obtain ⟨h1, h2⟩ := h
    all_goals simp [Scanner.is_at_end] at h2
    all_goals simp
    all_goals omega

/-- Embedding of `Scanner::block_comment`. -/
def Scanner.block_comment (s : Scanner) : Option Scanner :=
  s.block_comment_loop 1

/-- The scan loop of `Scanner::string`: consume until the closing quote or
end of input, counting newlines. -/
def Scanner.string_loop (s : Scanner) : Option Scanner :=
  if h : s.peek ≠ '"' ∧ s.is_at_end = false then
    match Scanner.advance
        { s with line := s.line + (if s.peek = '\n' then 1 else 0) } with
    | some _ =>
      Scanner.string_loop
        { s with current := s.current + 1,
                 line := s.line + (if s.peek = '\n' then 1 else 0) }
    | none => none
  else some s
  termination_by s.source.length - s.current
  decreasing_by
    obtain ⟨h1, h2⟩ := h
    simp [Scanner.is_at_end] at h2
    simp
    omega

/-- Embedding of `Scanner::string` (called with `start` at the opening quote and
`current` just past it). -/
def Scanner.string (s : Scanner) : Option Scanner :=
  match s.string_loop with
  | none => none
  | some s1 =>
    if s1.is_at_end then some (s1.error "Unterminated string")
    else
      match s1.advance with
      | none => none
      | some (_, s2) =>
        some (s2.add_token_with_literal .String
          (some (.Str ((s2.source.take (s2.current - 1)).drop (s2.start + 1)))))

/-- Digit-run loop of `Scanner::number`. -/
def Scanner.digits_loop (s : Scanner) : Option Scanner :=
  if h : s.peek.isDigit = true then
    match s.advance with
    | some _ => Scanner.digits_loop { s with current := s.current + 1 }
    | none => none
  else some s
  termination_by s.source.length - s.current
  decreasing_by
    by_cases hlt : s.current < s.source.length
    · omega
    · exfalso
      have hae : s.is_at_end = true := by simp [Scanner.is_at_end]; omega
      rw [show s.peek = '\x00' from by simp [Scanner.peek, hae]] at h
      exact absurd h (by decide)

/-- Embedding of `Scanner::number`. -/
def Scanner.number (s : Scanner) : Option Scanner :=
  match s.digits_loop with
  | none => none
  | some s1 =>
    match
      (if s1.peek = '.' ∧ s1.peek_next.isDigit = true then
        match s1.advance with
        | some (_, s2) => s2.digits_loop
        | none => none
      else some s1) with
    | none => none
    | some s3 =>
      let num_str := (s3.source.take s3.current).drop s3.start
      match parse_f64 num_str with
      | some val => some (s3.add_token_with_literal .Number (some (.Number val)))
      | none =>
        some ((s3.error ("Invalid number: " ++ String.mk num_str)).add_token_with_literal
          .Number (some (.Number 0)))

/-- Identifier-run loop of `Scanner::identifier`. -/
def Scanner.ident_loop (s : Scanner) : Option Scanner :=
  if h : (s.peek.isAlphanum || s.peek == '_') = true then
    match s.advance with
    | some _ => Scanner.ident_loop { s with current := s.current + 1 }
    | none => none
  else some s
  termination_by s.source.length - s.current
  decreasing_by
    by_cases hlt : s.current < s.source.length
    · omega
    · exfalso
      have hae : s.is_at_end = true := by simp [Scanner.is_at_end]; omega
      rw [show s.peek = '\x00' from by simp [Scanner.peek, hae]] at h
      exact absurd h (by decide)

/-- Embedding of `Scanner::identifier`. -/
def Scanner.identifier (s : Scanner) : Option Scanner :=
  match s.ident_loop with
  | none => none
  | some s1 =>
    let text := (s1.source.take s1.current).drop s1.start
    let token_type := keyword_type text
    let literal : Option Literal :=
      match token_type with
      | .False => some (.Bool false)
      | .True => some (.Bool true)
      | .Nil => some .Nil
      | _ => none
    some (s1.add_token_with_literal token_type literal)

/-- Embedding of `Scanner::scan_token`: dispatch on the next character. -/
def Scanner.scan_token (s : Scanner) : Option Scanner :=
  match s.advance with
  | none => none
  | some (c, s1) =>
    if c = '(' then some (s1.add_token .LeftParen)
    else if c = ')' then some (s1.add_token .RightParen)
    else if c = '\x7b' then some (s1.add_token .LeftBrace)
    else if c = '\x7d' then some (s1.add_token .RightBrace)
    else if c = ',' then some (s1.add_token .Comma)
    else if c = '.' then some (s1.add_token .Dot)
    else if c = '-' then some (s1.add_token .Minus)
    else if c = '+' then some (s1.add_token .Plus)
    else if c = ';' then some (s1.add_token .Semicolon)
    else if c = '*' then some (s1.add_token .Star)
    else if c = '!' then
      match s1.match_char '=' with
      | none => none
      | some (matched, s2) =>
        some (s2.add_token (if matched then .BangEqual else .Bang))
    else if c = '=' then
      match s1.match_char '=' with
      | none => none
      | some (matched, s2) =>
        some (s2.add_token (if matched then .EqualEqual else .Equal))
    else if c = '<' then
      match s1.match_char '=' with
      | none => none
      | some (matched, s2) =>
        some (s2.add_token (if matched then .LessEqual else .Less))
    else if c = '>' then
      match s1.match_char '=' with
      | none => none
      | some (matched, s2) =>
        some (s2.add_token (if matched then .GreaterEqual else .Greater))
    else if c = '/' then
      match s1.match_char '/' with
      | none => none
      | some (matched, s2) =>
        if matched then s2.line_comment
        else
          match s1.match_char '*' with
          | none => none
          | some (matched2, s3) =>
            if matched2 then s3.block_comment
            else some (s1.add_token .Slash)
    else if c = ' ' ∨ c = '\r' ∨ c = '\t' then some s1
    else if c = '\n' then some { s1 with line := s1.line + 1 }
    else if c = '"' then s1.string
    else if c.isDigit then s1.number
    else if c.isAlpha ∨ c = '_' then s1.identifier
    else some (s1.error "Unexpected character")

/-- The main loop of `Scanner::scan_tokens`, recursing on the explicit
bound `source.length - current` (each iteration strictly advances the
cursor, so the bound is adequate; that is proved below). Exhausting the
bound while input remains yields `none`. -/
def Scanner.scan_loop (s : Scanner) : Nat → Option Scanner
  | 0 => if s.is_at_end then some s else none
  | fuel + 1 =>
    if s.is_at_end then some s
    else
      match Scanner.scan_token { s with start := s.current } with
      | some s' => s'.scan_loop fuel
      | none => none

/-- Embedding of `Scanner::scan_tokens`: run the loop, then append the EOF token. -/
def Scanner.scan_tokens (s : Scanner) : Option Scanner :=
  match s.scan_loop (s.source.length - s.current) with
  | none => none
  | some s1 =>
    some { s1 with tokens := s1.tokens ++ [⟨.Eof, [], none, s1.line⟩] }

/-- Scan a whole source string from a fresh scanner. -/
def scan (source : List Char) : Option Scanner :=
  (Scanner.new source).scan_tokens

/-- Number of newlines among the first `j` source characters; `1 + nl src i`
is the 1-based line on which the character at index `i` lies. -/
def nl (src : List Char) (j : Nat) : Nat :=
  (src.take j).count '\n'

/-- The literal-presence discipline of the spec: a token carries a literal
exactly when its kind is String, Number, True, False or Nil, and then the
literal has the matching shape. -/
def LitOk (t : Token) : Prop :=
  match t.token_type with
  | .String => ∃ cs, t.literal = some (.Str cs)
  | .Number => ∃ q, t.literal = some (.Number q)
  | .True => t.literal = some (.Bool true)
  | .False => t.literal = some (.Bool false)
  | .Nil => t.literal = some .Nil
  | _ => t.literal = none

/-- Recogniser for the hypothesis of the whitespace-and-comments claim.
`trivia_scan cs 0` accepts a suffix of top-level trivia: whitespace
characters, `//` line comments, and balanced (possibly nested) block
comments; `trivia_scan cs (n + 1)` accepts a suffix that starts inside a
block comment of nesting depth `n + 1` and closes it, followed by
top-level trivia. -/
def trivia_scan : List Char → Nat → Bool
  | [], 0 => true
  | [], _ + 1 => false
  | c :: cs, 0 =>
    if c = ' ' ∨ c = '\r' ∨ c = '\t' ∨ c = '\n' then trivia_scan cs 0
    else if c = '/' ∧ cs.head? = some '/' then
      trivia_scan ((cs.drop 1).dropWhile (fun x => x != '\n')) 0
    else if c = '/' ∧ cs.head? = some '*' then trivia_scan (cs.drop 1) 1
    else false
  | c :: cs, n + 1 =>
    if c = '/' ∧ cs.head? = some '*' then trivia_scan (cs.drop 1) (n + 2)
    else if c = '*' ∧ cs.head? = some '/' then trivia_scan (cs.drop 1) n
    else trivia_scan cs (n + 1)
  termination_by cs _ => cs.length
  decreasing_by
    all_goals simp
    all_goals try omega
    all_goals have h1 := (List.dropWhile_sublist (l := cs.tail)
      (p := fun x => x != '\n')).length_le
    all_goals have h2 := List.length_tail cs
    all_goals omega

/-- A source string consisting only of whitespace, line comments and
balanced block comments. -/
def trivia_only (cs : List Char) : Bool :=
  trivia_scan cs 0

/-! ## Basic facts about the scanner primitives -/

theorem Scanner.is_at_end_false {s : Scanner} :
    s.is_at_end = false ↔ s.current < s.source.length := by
  simp [Scanner.is_at_end]

theorem Scanner.is_at_end_true {s : Scanner} :
    s.is_at_end = true ↔ s.source.length ≤ s.current := by
  simp [Scanner.is_at_end]

/-- At end of input, `peek` is the null character. -/
theorem Scanner.peek_at_end {s : Scanner} (h : s.source.length ≤ s.current) :
    s.peek = '\x00' := by
  simp [Scanner.peek, Scanner.is_at_end_true.mpr h]

/-- In bounds, `peek` reads the current character. -/
theorem Scanner.peek_of_lt {s : Scanner} (h : s.current < s.source.length) :
    s.peek = s.source[s.current] := by
  have hf : s.is_at_end = false := Scanner.is_at_end_false.mpr h
  simp [Scanner.peek, hf, List.getD_eq_getElem?_getD, List.getElem?_eq_getElem h]

/-- If `peek` satisfies a predicate that the null character fails, the
cursor is in bounds. -/
theorem Scanner.lt_of_peek {s : Scanner} {p : Char → Bool}
    (hnul : p '\x00' = false) (h : p s.peek = true) :
    s.current < s.source.length := by
  by_contra hge
  rw [Scanner.peek_at_end (by omega), hnul] at h
  cases h

/-- If `peek` differs from the null character, the cursor is in bounds. -/
theorem Scanner.lt_of_peek_ne {s : Scanner} (h : s.peek ≠ '\x00') :
    s.current < s.source.length := by
  by_contra hge
  exact h (Scanner.peek_at_end (by omega))

/-- If `peek_next` differs from the null character, `current + 1` is in
bounds. -/
theorem Scanner.lt_of_peek_next_ne {s : Scanner} (h : s.peek_next ≠ '\x00') :
    s.current + 1 < s.source.length := by
  by_contra hge
  exact h (by simp [Scanner.peek_next, show s.source.length ≤ s.current + 1 by omega])

/-- In bounds, `peek_next` reads the next character. -/
theorem Scanner.peek_next_of_lt {s : Scanner} (h : s.current + 1 < s.source.length) :
    s.peek_next = s.source[s.current + 1] := by
  simp [Scanner.peek_next, show ¬(s.source.length ≤ s.current + 1) by omega,
    List.getD_eq_getElem?_getD, List.getElem?_eq_getElem h]

/-- The function `advance` succeeds exactly in bounds, and then steps the cursor. -/
theorem Scanner.advance_eq_some {s : Scanner} {c : Char} {s' : Scanner}
    (h : s.advance = some (c, s')) :
    s.current < s.source.length ∧ s.source[s.current]? = some c ∧
      s' = { s with current := s.current + 1 } := by
  unfold Scanner.advance at h
  cases hg : s.source[s.current]? with
  | none => rw [hg] at h; exact absurd h (by simp)
  | some d =>
    rw [hg] at h
    simp only [Option.some.injEq, Prod.mk.injEq] at h
    exact ⟨(List.getElem?_eq_some.mp hg).1, congrArg some h.1, h.2.symm⟩

/-- In bounds, `advance` succeeds. -/
theorem Scanner.advance_of_lt {s : Scanner} (h : s.current < s.source.length) :
    s.advance = some (s.source[s.current], { s with current := s.current + 1 }) := by
  unfold Scanner.advance
  rw [List.getElem?_eq_getElem h]

/-- The function `advance` fails exactly out of bounds. -/
theorem Scanner.advance_eq_none {s : Scanner} (h : s.advance = none) :
    s.source.length ≤ s.current := by
  by_contra hge
  rw [Scanner.advance_of_lt (by omega)] at h
  cases h

/-- The function `match_char` never fails, only reads state fields other than the
cursor, and advances over exactly one occurrence of the expected
character when it reports a match. -/
theorem Scanner.match_char_spec (s : Scanner) (expected : Char) :
    ∃ b s', s.match_char expected = some (b, s') ∧
      s'.source = s.source ∧ s'.start = s.start ∧ s'.line = s.line ∧
      s'.tokens = s.tokens ∧ s'.errors = s.errors ∧
      ((b = false ∧ s' = s) ∨
        (b = true ∧ s.current < s.source.length ∧
          s'.current = s.current + 1 ∧ s.source[s.current]? = some expected)) := by
  by_cases hae : s.is_at_end
  · refine ⟨false, s, ?_, rfl, rfl, rfl, rfl, rfl, Or.inl ⟨rfl, rfl⟩⟩
    unfold Scanner.match_char
    rw [if_pos hae]
  · have hf : s.is_at_end = false := by simpa using hae
    have hlt : s.current < s.source.length := Scanner.is_at_end_false.mp hf
    by_cases hc : s.source[s.current] = expected
    · refine ⟨true, { s with current := s.current + 1 }, ?_, rfl, rfl, rfl, rfl, rfl,
        Or.inr ⟨rfl, hlt, rfl, by
          rw [List.getElem?_eq_getElem hlt]; exact congrArg some hc⟩⟩
      unfold Scanner.match_char
      rw [if_neg hae, List.getElem?_eq_getElem hlt]
      simp [hc]
    · refine ⟨false, s, ?_, rfl, rfl, rfl, rfl, rfl, Or.inl ⟨rfl, rfl⟩⟩
      unfold Scanner.match_char
      rw [if_neg hae, List.getElem?_eq_getElem hlt]
      simp [hc]

/-! ## Facts about `nl` (newline counting) and list segments -/

theorem nl_zero (src : List Char) : nl src 0 = 0 := by simp [nl]

theorem nl_succ (src : List Char) {i : Nat} (h : i < src.length) :
    nl src (i + 1) = nl src i + (if src[i] = '\n' then 1 else 0) := by
  unfold nl
  rw [List.take_succ, List.count_append, List.getElem?_eq_getElem h]
  simp [List.count_cons]
  try split <;> simp_all

/-- Counting newlines of the segment between two cursor positions. -/
theorem nl_add_seg (src : List Char) {i j : Nat} (h : i ≤ j) :
    nl src i + ((src.take j).drop i).count '\n' = nl src j := by
  unfold nl
  conv_rhs => rw [← List.take_append_drop i (src.take j)]
  rw [List.count_append, List.take_take, min_eq_left h]

theorem nl_mono (src : List Char) {i j : Nat} (h : i ≤ j) :
    nl src i ≤ nl src j := by
  have := nl_add_seg src h
  omega

/-- Past the end of the source, `nl` counts all newlines. -/
theorem nl_of_le (src : List Char) {j : Nat} (h : src.length ≤ j) :
    nl src j = src.count '\n' := by
  unfold nl
  rw [List.take_of_length_le h]

/-- Decomposing a `drop` one character at a time. -/
theorem drop_cons {src cs : List Char} {i : Nat} {c : Char}
    (h : src.drop i = c :: cs) :
    src[i]? = some c ∧ src.drop (i + 1) = cs := by
  constructor
  · have h0 : (src.drop i)[0]? = some c := by rw [h]; simp
    rwa [List.getElem?_drop, Nat.add_zero] at h0
  · have : List.drop 1 (List.drop i src) = List.drop (i + 1) src := List.drop_drop 1 i src
    rw [← this, h]
    rfl

/-- The segment `[i, j)` of `src` seen by `add_token_with_literal`,
decomposed at its first character. -/
theorem seg_cons (src : List Char) {i j : Nat} (hij : i < j)
    (h : i < src.length) :
    (src.take j).drop i = src[i] :: (src.take j).drop (i + 1) := by
  have hlen : i < (src.take j).length := by
    rw [List.length_take]
    omega
  rw [List.drop_eq_getElem_cons hlen]
  congr 1
  rw [List.getElem_take]

/-- The function `peek` through a view of the remaining input. -/
theorem Scanner.peek_of_drop {s : Scanner} {c : Char} {cs : List Char}
    (h : s.source.drop s.current = c :: cs) : s.peek = c := by
  have hlt : s.current < s.source.length := by
    by_contra hge
    rw [List.drop_eq_nil_of_le (by omega)] at h
    cases h
  rw [Scanner.peek_of_lt hlt]
  have := (drop_cons h).1
  rw [List.getElem?_eq_getElem hlt] at this
  exact Option.some.inj this

/-- The function `peek_next` through a view of the remaining input. -/
theorem Scanner.peek_next_of_drop {s : Scanner} {c d : Char} {cs : List Char}
    (h : s.source.drop s.current = c :: d :: cs) : s.peek_next = d := by
  have h1 := (drop_cons h).2
  have hlt : s.current + 1 < s.source.length := by
    by_contra hge
    rw [List.drop_eq_nil_of_le (by omega)] at h1
    cases h1
  rw [Scanner.peek_next_of_lt hlt]
  have := (drop_cons h1).1
  rw [List.getElem?_eq_getElem hlt] at this
  exact Option.some.inj this

/-- An empty remaining view means the scanner is at end of input. -/
theorem Scanner.at_end_of_drop_nil {s : Scanner}
    (h : s.source.drop s.current = []) : s.source.length ≤ s.current := by
  rwa [List.drop_eq_nil_iff] at h

/-- A nonempty remaining view gives the current character. -/
theorem Scanner.getElem_of_drop {s : Scanner} {c : Char} {cs : List Char}
    (h : s.source.drop s.current = c :: cs) : s.source[s.current]? = some c :=
  (drop_cons h).1

/-- Dropping the length of a `takeWhile` block lands on the `dropWhile`
residue. -/
theorem drop_length_takeWhile (p : Char → Bool) (u : List Char) :
    u.drop (u.takeWhile p).length = u.dropWhile p := by
  induction u with
  | nil => simp
  | cons c cs ih =>
    by_cases hpc : p c = true
    · simp [List.takeWhile_cons, List.dropWhile_cons, hpc, ih]
    · simp [List.takeWhile_cons, List.dropWhile_cons, hpc]

/-- Dropping past a `takeWhile` block lands on the `dropWhile` residue. -/
theorem drop_add_length_takeWhile (p : Char → Bool) (src : List Char) (i : Nat) :
    src.drop (i + ((src.drop i).takeWhile p).length) = (src.drop i).dropWhile p := by
  rw [← List.drop_drop, drop_length_takeWhile]

/-- Taking the length of a `takeWhile` block recovers the block. -/
theorem take_length_takeWhile (p : Char → Bool) (u : List Char) :
    u.take (u.takeWhile p).length = u.takeWhile p := by
  induction u with
  | nil => rfl
  | cons c cs ih =>
    rw [List.takeWhile_cons]
    by_cases hpc : p c = true
    · simp only [hpc, if_true, List.length_cons, List.take_succ_cons, ih]
    · simp [hpc]

/-! ## Characterisation of the consumer loops -/

/-- The `//` comment loop consumes exactly the maximal newline-free run,
touching nothing but the cursor. -/
theorem Scanner.line_comment_spec (s : Scanner) :
    ∃ s', s.line_comment = some s' ∧ s'.source = s.source ∧ s'.start = s.start ∧
      s'.tokens = s.tokens ∧ s'.errors = s.errors ∧ s'.line = s.line ∧
      s'.current =
        s.current + ((s.source.drop s.current).takeWhile (fun c => c != '\n')).length := by
  induction s using Scanner.line_comment.induct with
  | case1 s h x heq ih =>
    obtain ⟨hne, hf⟩ := h
    have hlt := Scanner.is_at_end_false.mp hf
    have hdrop : s.source.drop s.current = s.source[s.current] :: s.source.drop (s.current + 1) :=
      List.drop_eq_getElem_cons hlt
    have hpeek : s.peek = s.source[s.current] := Scanner.peek_of_lt hlt
    have hpc : (s.source[s.current] != '\n') = true := bne_iff_ne.mpr (hpeek ▸ hne)
    obtain ⟨s'', hrun, hsrc, hstart, htok, herr, hline, hcur⟩ := ih
    refine ⟨s'', ?_, hsrc, hstart, htok, herr, hline, ?_⟩
    · rw [Scanner.line_comment, dif_pos ⟨hne, hf⟩, Scanner.advance_of_lt hlt]
      exact hrun
    · rw [hdrop, List.takeWhile_cons, if_pos hpc, List.length_cons]
      simp only at hcur
      omega
  | case2 s h heq =>
    obtain ⟨hne, hf⟩ := h
    have hlt := Scanner.is_at_end_false.mp hf
    rw [Scanner.advance_of_lt hlt] at heq
    cases heq
  | case3 s h =>
    refine ⟨s, by rw [Scanner.line_comment, dif_neg h], rfl, rfl, rfl, rfl, rfl, ?_⟩
    by_cases hlt : s.current < s.source.length
    · have hdrop : s.source.drop s.current =
          s.source[s.current] :: s.source.drop (s.current + 1) :=
        List.drop_eq_getElem_cons hlt
      have hpeek : s.peek = s.source[s.current] := Scanner.peek_of_lt hlt
      have hnl : s.source[s.current] = '\n' := by
        by_contra hx
        exact h ⟨hpeek ▸ hx, Scanner.is_at_end_false.mpr hlt⟩
      rw [hdrop, List.takeWhile_cons]
      simp [hnl]
    · rw [List.drop_eq_nil_of_le (by omega)]
      simp

/-- The digit loop consumes exactly the maximal digit run, touching nothing
but the cursor. -/
theorem Scanner.digits_loop_spec (s : Scanner) :
    ∃ s', s.digits_loop = some s' ∧ s'.source = s.source ∧ s'.start = s.start ∧
      s'.tokens = s.tokens ∧ s'.errors = s.errors ∧ s'.line = s.line ∧
      s'.current =
        s.current + ((s.source.drop s.current).takeWhile Char.isDigit).length := by
  induction s using Scanner.digits_loop.induct with
  | case1 s h x heq ih =>
    have hlt := Scanner.lt_of_peek (p := Char.isDigit) (by decide) h
    have hdrop : s.source.drop s.current = s.source[s.current] :: s.source.drop (s.current + 1) :=
      List.drop_eq_getElem_cons hlt
    have hpeek : s.peek = s.source[s.current] := Scanner.peek_of_lt hlt
    have hpc : s.source[s.current].isDigit = true := hpeek ▸ h
    obtain ⟨s'', hrun, hsrc, hstart, htok, herr, hline, hcur⟩ := ih
    refine ⟨s'', ?_, hsrc, hstart, htok, herr, hline, ?_⟩
    · rw [Scanner.digits_loop, dif_pos h, Scanner.advance_of_lt hlt]
      exact hrun
    · rw [hdrop, List.takeWhile_cons, if_pos hpc, List.length_cons]
      simp only at hcur
      omega
  | case2 s h heq =>
    have hlt := Scanner.lt_of_peek (p := Char.isDigit) (by decide) h
    rw [Scanner.advance_of_lt hlt] at heq
    cases heq
  | case3 s h =>
    refine ⟨s, by rw [Scanner.digits_loop, dif_neg h], rfl, rfl, rfl, rfl, rfl, ?_⟩
    by_cases hlt : s.current < s.source.length
    · have hdrop : s.source.drop s.current =
          s.source[s.current] :: s.source.drop (s.current + 1) :=
        List.drop_eq_getElem_cons hlt
      have hpeek : s.peek = s.source[s.current] := Scanner.peek_of_lt hlt
      have hnd : s.source[s.current].isDigit = false := by
        rw [← hpeek]
        exact Bool.not_eq_true _ ▸ h
      rw [hdrop, List.takeWhile_cons]
      simp [hnd]
    · rw [List.drop_eq_nil_of_le (by omega)]
      simp

/-- The identifier loop consumes exactly the maximal alphanumeric and
underscore run, touching nothing but the cursor. -/
theorem Scanner.ident_loop_spec (s : Scanner) :
    ∃ s', s.ident_loop = some s' ∧ s'.source = s.source ∧ s'.start = s.start ∧
      s'.tokens = s.tokens ∧ s'.errors = s.errors ∧ s'.line = s.line ∧
      s'.current =
        s.current +
          ((s.source.drop s.current).takeWhile (fun c => c.isAlphanum || c == '_')).length := by
  induction s using Scanner.ident_loop.induct with
  | case1 s h x heq ih =>
    have hlt := Scanner.lt_of_peek (p := fun c => c.isAlphanum || c == '_') (by decide) h
    have hdrop : s.source.drop s.current = s.source[s.current] :: s.source.drop (s.current + 1) :=
      List.drop_eq_getElem_cons hlt
    have hpeek : s.peek = s.source[s.current] := Scanner.peek_of_lt hlt
    have hpc : (s.source[s.current].isAlphanum || s.source[s.current] == '_') = true :=
      hpeek ▸ h
    obtain ⟨s'', hrun, hsrc, hstart, htok, herr, hline, hcur⟩ := ih
    refine ⟨s'', ?_, hsrc, hstart, htok, herr, hline, ?_⟩
    · rw [Scanner.ident_loop, dif_pos h, Scanner.advance_of_lt hlt]
      exact hrun
    · rw [hdrop, List.takeWhile_cons, if_pos hpc, List.length_cons]
      simp only at hcur
      omega
  | case2 s h heq =>
    have hlt := Scanner.lt_of_peek (p := fun c => c.isAlphanum || c == '_') (by decide) h
    rw [Scanner.advance_of_lt hlt] at heq
    cases heq
  | case3 s h =>
    refine ⟨s, by rw [Scanner.ident_loop, dif_neg h], rfl, rfl, rfl, rfl, rfl, ?_⟩
    by_cases hlt : s.current < s.source.length
    · have hdrop : s.source.drop s.current =
          s.source[s.current] :: s.source.drop (s.current + 1) :=
        List.drop_eq_getElem_cons hlt
      have hpeek : s.peek = s.source[s.current] := Scanner.peek_of_lt hlt
      have hnd : (s.source[s.current].isAlphanum || s.source[s.current] == '_') = false := by
        rw [← hpeek]
        exact Bool.not_eq_true _ ▸ h
      rw [hdrop, List.takeWhile_cons]
      simp only [hnd, if_false]
      simp
    · rw [List.drop_eq_nil_of_le (by omega)]
      simp

/-- The string loop consumes exactly the maximal quote-free run, counting
the newlines it crosses, and touching nothing but cursor and line. -/
theorem Scanner.string_loop_spec (s : Scanner) :
    ∃ s', s.string_loop = some s' ∧ s'.source = s.source ∧ s'.start = s.start ∧
      s'.tokens = s.tokens ∧ s'.errors = s.errors ∧
      s'.current =
        s.current + ((s.source.drop s.current).takeWhile (fun c => c != '"')).length ∧
      s'.line =
        s.line + ((s.source.drop s.current).takeWhile (fun c => c != '"')).count '\n' := by
  induction s using Scanner.string_loop.induct with
  | case1 s h x heq ih =>
    obtain ⟨hne, hf⟩ := h
    have hlt := Scanner.is_at_end_false.mp hf
    have hdrop : s.source.drop s.current = s.source[s.current] :: s.source.drop (s.current + 1) :=
      List.drop_eq_getElem_cons hlt
    have hpeek : s.peek = s.source[s.current] := Scanner.peek_of_lt hlt
    have hpc : (s.source[s.current] != '"') = true := bne_iff_ne.mpr (hpeek ▸ hne)
    obtain ⟨s'', hrun, hsrc, hstart, htok, herr, hcur, hline⟩ := ih
    refine ⟨s'', ?_, hsrc, hstart, htok, herr, ?_, ?_⟩
    · rw [Scanner.string_loop, dif_pos ⟨hne, hf⟩]
      rw [Scanner.advance_of_lt (s := { s with line := s.line + (if s.peek = '\n' then 1 else 0) }) hlt]
      exact hrun
    · rw [hdrop, List.takeWhile_cons, if_pos hpc, List.length_cons]
      simp only at hcur
      omega
    · rw [hdrop, List.takeWhile_cons, if_pos hpc, List.count_cons]
      simp only at hline
      rw [hline, hpeek]
      have : (s.source[s.current] == '\n') = true ↔ s.source[s.current] = '\n' := beq_iff_eq
      by_cases hnl : s.source[s.current] = '\n' <;> simp [hnl] <;> omega
  | case2 s h heq =>
    obtain ⟨hne, hf⟩ := h
    have hlt := Scanner.is_at_end_false.mp hf
    have hge := Scanner.advance_eq_none heq
    simp only at hge
    omega
  | case3 s h =>
    refine ⟨s, by rw [Scanner.string_loop, dif_neg h], rfl, rfl, rfl, rfl, ?_, ?_⟩
    all_goals by_cases hlt : s.current < s.source.length
    · have hdrop : s.source.drop s.current =
          s.source[s.current] :: s.source.drop (s.current + 1) :=
        List.drop_eq_getElem_cons hlt
      have hpeek : s.peek = s.source[s.current] := Scanner.peek_of_lt hlt
      have hnd : s.source[s.current] = '"' := by
        by_contra hx
        exact h ⟨hpeek ▸ hx, Scanner.is_at_end_false.mpr hlt⟩
      rw [hdrop, List.takeWhile_cons]
      simp [hnd]
    · rw [List.drop_eq_nil_of_le (by omega)]
      simp
    · have hdrop : s.source.drop s.current =
          s.source[s.current] :: s.source.drop (s.current + 1) :=
        List.drop_eq_getElem_cons hlt
      have hpeek : s.peek = s.source[s.current] := Scanner.peek_of_lt hlt
      have hnd : s.source[s.current] = '"' := by
        by_contra hx
        exact h ⟨hpeek ▸ hx, Scanner.is_at_end_false.mpr hlt⟩
      rw [hdrop, List.takeWhile_cons]
      simp [hnd]
    · rw [List.drop_eq_nil_of_le (by omega)]
      simp

/-- The block-comment loop never emits a token, advances monotonically
within bounds, accounts one line per newline consumed, and either leaves
the diagnostic stream alone or, only when it ran off the end of the
input, appends exactly one "Unterminated block comment" diagnostic at the
current line. -/
theorem Scanner.block_comment_loop_spec (s : Scanner) (nesting : Nat) :
    ∃ s', s.block_comment_loop nesting = some s' ∧ s'.source = s.source ∧
      s'.start = s.start ∧ s'.tokens = s.tokens ∧
      s.current ≤ s'.current ∧
      (s.current ≤ s.source.length → s'.current ≤ s.source.length) ∧
      s'.line + nl s.source s.current = s.line + nl s.source s'.current ∧
      (s'.errors = s.errors ∨
        (s'.errors = s.errors ++ [(s'.line, "Unterminated block comment")] ∧
          s.source.length ≤ s'.current)) := by
  induction s, nesting using Scanner.block_comment_loop.induct with
  | case1 s nesting h hoc x heq y heq2 ih =>
    obtain ⟨hn, hf⟩ := h
    have hlt := Scanner.is_at_end_false.mp hf
    have hlt2 : s.current + 1 < s.source.length :=
      Scanner.lt_of_peek_next_ne (by rw [hoc.2]; decide)
    have hc1 : s.source[s.current] = '/' := by rw [← Scanner.peek_of_lt hlt, hoc.1]
    have hc2 : s.source[s.current + 1] = '*' := by
      rw [← Scanner.peek_next_of_lt hlt2, hoc.2]
    have hnl1 : nl s.source (s.current + 1) = nl s.source s.current := by
      rw [nl_succ s.source hlt, hc1]; simp
    have hnl2 : nl s.source (s.current + 2) = nl s.source (s.current + 1) := by
      rw [show s.current + 2 = (s.current + 1) + 1 by omega, nl_succ s.source hlt2, hc2]
      simp
    obtain ⟨s'', hrun, hsrc, hstart, htok, hmono, hbound, hline, herr⟩ := ih
    simp only at hsrc hstart htok hmono hbound hline herr
    refine ⟨s'', ?_, hsrc, hstart, htok, by omega, ?_, ?_, ?_⟩
    · rw [Scanner.block_comment_loop, dif_pos ⟨hn, hf⟩, if_pos hoc,
        Scanner.advance_of_lt hlt,
        Scanner.advance_of_lt (s := { s with current := s.current + 1 }) hlt2]
      exact hrun
    · intro hle
      exact hbound (by omega)
    · omega
    · exact herr
  | case2 s nesting h hoc x heq heq2 =>
    obtain ⟨hn, hf⟩ := h
    have hlt2 : s.current + 1 < s.source.length :=
      Scanner.lt_of_peek_next_ne (by rw [hoc.2]; decide)
    have hge := Scanner.advance_eq_none heq2
    simp only at hge
    omega
  | case3 s nesting h hoc heq =>
    obtain ⟨hn, hf⟩ := h
    have hlt := Scanner.is_at_end_false.mp hf
    have hge := Scanner.advance_eq_none heq
    simp only at hge
    omega
  | case4 s nesting h hoc hcc x heq y heq2 ih =>
    obtain ⟨hn, hf⟩ := h
    have hlt := Scanner.is_at_end_false.mp hf
    have hlt2 : s.current + 1 < s.source.length :=
      Scanner.lt_of_peek_next_ne (by rw [hcc.2]; decide)
    have hc1 : s.source[s.current] = '*' := by rw [← Scanner.peek_of_lt hlt, hcc.1]
    have hc2 : s.source[s.current + 1] = '/' := by
      rw [← Scanner.peek_next_of_lt hlt2, hcc.2]
    have hnl1 : nl s.source (s.current + 1) = nl s.source s.current := by
      rw [nl_succ s.source hlt, hc1]; simp
    have hnl2 : nl s.source (s.current + 2) = nl s.source (s.current + 1) := by
      rw [show s.current + 2 = (s.current + 1) + 1 by omega, nl_succ s.source hlt2, hc2]
      simp
    obtain ⟨s'', hrun, hsrc, hstart, htok, hmono, hbound, hline, herr⟩ := ih
    simp only at hsrc hstart htok hmono hbound hline herr
    refine ⟨s'', ?_, hsrc, hstart, htok, by omega, ?_, ?_, ?_⟩
    · rw [Scanner.block_comment_loop, dif_pos ⟨hn, hf⟩, if_neg hoc, if_pos hcc,
        Scanner.advance_of_lt hlt,
        Scanner.advance_of_lt (s := { s with current := s.current + 1 }) hlt2]
      exact hrun
    · intro hle
      exact hbound (by omega)
    · omega
    · exact herr
  | case5 s nesting h hoc hcc x heq heq2 =>
    obtain ⟨hn, hf⟩ := h
    have hlt2 : s.current + 1 < s.source.length :=
      Scanner.lt_of_peek_next_ne (by rw [hcc.2]; decide)
    have hge := Scanner.advance_eq_none heq2
    simp only at hge
    omega
  | case6 s nesting h hoc hcc heq =>
    obtain ⟨hn, hf⟩ := h
    have hlt := Scanner.is_at_end_false.mp hf
    have hge := Scanner.advance_eq_none heq
    simp only at hge
    omega
  | case7 s nesting h hoc hcc x heq ih =>
    obtain ⟨hn, hf⟩ := h
    have hlt := Scanner.is_at_end_false.mp hf
    have hpeek : s.peek = s.source[s.current] := Scanner.peek_of_lt hlt
    have hnl1 : nl s.source (s.current + 1) =
        nl s.source s.current + (if s.source[s.current] = '\n' then 1 else 0) :=
      nl_succ s.source hlt
    obtain ⟨s'', hrun, hsrc, hstart, htok, hmono, hbound, hline, herr⟩ := ih
    simp only at hsrc hstart htok hmono hbound hline herr
    refine ⟨s'', ?_, hsrc, hstart, htok, by omega, ?_, ?_, ?_⟩
    · rw [Scanner.block_comment_loop, dif_pos ⟨hn, hf⟩, if_neg hoc, if_neg hcc,
        Scanner.advance_of_lt
          (s := { s with line := s.line + (if s.peek = '\n' then 1 else 0) }) hlt]
      exact hrun
    · intro hle
      exact hbound (by omega)
    · rw [hpeek] at hline
      by_cases hx : s.source[s.current] = '\n' <;> simp [hx] at hline hnl1 <;> omega
    · exact herr
  | case8 s nesting h hoc hcc heq =>
    obtain ⟨hn, hf⟩ := h
    have hlt := Scanner.is_at_end_false.mp hf
    have hge := Scanner.advance_eq_none heq
    simp only at hge
    omega
  | case9 s nesting h hn =>
    refine ⟨s.error "Unterminated block comment", ?_, rfl, rfl, rfl, le_refl _, fun hle => hle,
      rfl, Or.inr ⟨rfl, ?_⟩⟩
    · rw [Scanner.block_comment_loop, dif_neg h, if_pos hn]
    · rw [Decidable.not_and_iff_or_not] at h
      rcases h with h | h
      · exact absurd hn h
      · have : s.is_at_end = true := by
          cases hb : s.is_at_end
          · exact absurd hb h
          · rfl
        exact Scanner.is_at_end_true.mp this
  | case10 s nesting h hn =>
    exact ⟨s, by rw [Scanner.block_comment_loop, dif_neg h, if_neg hn], rfl, rfl, rfl,
      le_refl _, fun hle => hle, rfl, Or.inl rfl⟩

/-! ## Further list bookkeeping -/

/-- Newline count across an explicit chunk of the source. -/
theorem nl_chunk (src : List Char) (i k : Nat) :
    nl src (i + k) = nl src i + ((src.drop i).take k).count '\n' := by
  unfold nl
  rw [List.take_add, List.count_append]

/-- If `c` occurs in `u`, scanning up to the first failure of `(· != c)`
lands exactly on an occurrence of `c`. -/
theorem dropWhile_ne_eq_cons {u : List Char} {c : Char} (h : c ∈ u) :
    u.dropWhile (fun x => x != c) = c :: (u.dropWhile (fun x => x != c)).tail := by
  induction u with
  | nil => cases h
  | cons d ds ih =>
    by_cases hdc : d = c
    · subst hdc
      simp [List.dropWhile_cons]
    · have hin : c ∈ ds := by
        cases List.mem_cons.mp h with
        | inl hh => exact absurd hh.symm hdc
        | inr hh => exact hh
      rw [List.dropWhile_cons, if_pos (bne_iff_ne.mpr hdc)]
      exact ih hin

/-- If `c` does not occur in `u`, the whole list satisfies `(· != c)`. -/
theorem takeWhile_ne_eq_self {u : List Char} {c : Char} (h : c ∉ u) :
    u.takeWhile (fun x => x != c) = u := by
  induction u with
  | nil => rfl
  | cons d ds ih =>
    have hdc : d ≠ c := fun hh => h (hh ▸ List.mem_cons_self d ds)
    have hin : c ∉ ds := fun hh => h (List.mem_cons_of_mem d hh)
    rw [List.takeWhile_cons, if_pos (bne_iff_ne.mpr hdc), ih hin]

/-- A `takeWhile Char.isDigit` block contains no newline. -/
theorem count_nl_takeWhile_isDigit (u : List Char) :
    (u.takeWhile Char.isDigit).count '\n' = 0 := by
  rw [List.count_eq_zero]
  intro hmem
  have := List.mem_takeWhile_imp hmem
  exact absurd this (by decide)

/-! ## Consumer specifications -/

/-- Full characterisation of `Scanner::string`.  If a closing quote
exists, it consumes through the first one and emits exactly one String
token (lexeme from `start`, literal the slice strictly between the
quotes) and no error; otherwise it consumes everything, emits nothing,
and reports one "Unterminated string" diagnostic. -/
theorem Scanner.string_spec (s : Scanner) :
    ∃ s', s.string = some s' ∧ s'.source = s.source ∧ s'.start = s.start ∧
      s.current ≤ s'.current ∧
      (s.current ≤ s.source.length → s'.current ≤ s.source.length) ∧
      s'.line + nl s.source s.current = s.line + nl s.source s'.current ∧
      (if '"' ∈ s.source.drop s.current then
        s'.errors = s.errors ∧
        s'.current =
          s.current + ((s.source.drop s.current).takeWhile (fun c => c != '"')).length + 1 ∧
        s'.tokens = s.tokens ++ [⟨.String, (s.source.take s'.current).drop s.start,
          some (.Str ((s.source.take (s'.current - 1)).drop (s.start + 1))), s'.line⟩]
      else
        s'.tokens = s.tokens ∧
        s'.errors = s.errors ++ [(s'.line, "Unterminated string")]) := by
  obtain ⟨s1, hrun, hsrc, hstart, htok, herr, hcur, hline⟩ := Scanner.string_loop_spec s
  by_cases hmem : '"' ∈ s.source.drop s.current
  · -- a closing quote exists: the loop stops on it, `advance` consumes it
    have hdw : (s.source.drop s.current).dropWhile (fun x => x != '"') =
        '"' :: ((s.source.drop s.current).dropWhile (fun x => x != '"')).tail :=
      dropWhile_ne_eq_cons hmem
    have hres : s.source.drop s1.current = (s.source.drop s.current).dropWhile (fun x => x != '"') := by
      rw [hcur, drop_add_length_takeWhile]
    have hq : s.source[s1.current]? = some '"' := by
      have := (drop_cons (show s.source.drop s1.current =
        '"' :: ((s.source.drop s.current).dropWhile (fun x => x != '"')).tail by
          rw [hres]; exact hdw)).1
      exact this
    have hlt1 : s1.current < s.source.length := (List.getElem?_eq_some.mp hq).1
    have hf1 : s1.is_at_end = false := by
      rw [Scanner.is_at_end_false, hsrc]
      exact hlt1
    have hlt1x : s1.current < s1.source.length := by rw [hsrc]; exact hlt1
    have hadv := Scanner.advance_of_lt hlt1x
    refine ⟨Scanner.add_token_with_literal { s1 with current := s1.current + 1 } .String
      (some (.Str ((s1.source.take (s1.current + 1 - 1)).drop (s1.start + 1)))), ?_, ?_, ?_, ?_, ?_, ?_, ?_⟩
    · unfold Scanner.string
      simp only [hrun]
      rw [if_neg (by rw [hf1]; exact Bool.false_ne_true)]
      simp only [hadv]
    all_goals simp only [Scanner.add_token_with_literal]
    · rw [hsrc]
    · rw [hstart]
    · omega
    · intro hle
      omega
    · have hnlq : nl s.source (s1.current + 1) = nl s.source s1.current := by
        rw [nl_succ s.source hlt1]
        have : s.source[s1.current] = '"' := by
          rw [List.getElem?_eq_getElem hlt1] at hq
          exact Option.some.inj hq
        rw [this]
        simp
      have hnl1 : nl s.source s1.current = nl s.source s.current +
          ((s.source.drop s.current).takeWhile (fun c => c != '"')).count '\n' := by
        rw [hcur, nl_chunk, take_length_takeWhile]
      omega
    · rw [if_pos hmem]
      refine ⟨herr, ?_, ?_⟩
      · omega
      · simp only [htok, hsrc, hstart]
  · -- no closing quote: the loop consumes everything, then the error path
    have htw : (s.source.drop s.current).takeWhile (fun x => x != '"') =
        s.source.drop s.current := takeWhile_ne_eq_self hmem
    have hend : s.source.length ≤ s1.current := by
      rw [hcur, htw, List.length_drop]
      omega
    have ht1 : s1.is_at_end = true := by
      rw [Scanner.is_at_end_true, hsrc]
      exact hend
    refine ⟨s1.error "Unterminated string", ?_, ?_, ?_, ?_, ?_, ?_, ?_⟩
    · unfold Scanner.string
      simp only [hrun]
      rw [if_pos ht1]
    · rw [Scanner.error, hsrc]
    · rw [Scanner.error, hstart]
    · simp [Scanner.error]
      omega
    · intro hle
      simp [Scanner.error]
      rw [hcur, htw, List.length_drop]
      omega
    · simp only [Scanner.error]
      have : nl s.source s1.current = nl s.source s.current +
          (s.source.drop s.current).count '\n' := by
        rw [hcur, htw, List.length_drop, nl_chunk]
        congr 2
        rw [List.take_of_length_le (by rw [List.length_drop])]
      rw [hline, htw]
      omega
    · rw [if_neg hmem]
      exact ⟨by rw [Scanner.error]; exact htok, by simp [Scanner.error, herr]⟩

/-- A `takeWhile` block for a predicate that rejects newline contains no
newline. -/
theorem count_nl_takeWhile {p : Char → Bool} (hp : p '\n' = false) (u : List Char) :
    (u.takeWhile p).count '\n' = 0 := by
  rw [List.count_eq_zero]
  intro hmem
  have := List.mem_takeWhile_imp hmem
  rw [hp] at this
  cases this

/-- A `takeWhile` block sitting at `i` keeps the cursor within bounds. -/
theorem length_takeWhile_drop_le (p : Char → Bool) (src : List Char) (i : Nat) :
    ((src.drop i).takeWhile p).length ≤ src.length - i := by
  have h1 := (List.takeWhile_sublist (l := src.drop i) (p := p)).length_le
  rw [List.length_drop] at h1
  exact h1

/-- Both branches in a list, so the conditional is in the list. -/
theorem ite_mem_of {c : Prop} [Decidable c] {a b : TokenType} {L : List TokenType}
    (ha : a ∈ L) (hb : b ∈ L) : (if c then a else b) ∈ L := by
  split
  · exact ha
  · exact hb

/-- The sixteen keywords and the Identifier fallback are the only kinds
`keyword_type` produces. -/
theorem keyword_type_mem (text : List Char) :
    keyword_type text ∈ [TokenType.And, .Class, .Else, .False, .Fun, .For, .If,
      .Nil, .Or, .Print, .Return, .Super, .This, .True, .Var, .While, .Identifier] := by
  unfold keyword_type
  repeat' apply ite_mem_of
  all_goals decide

/-- Full characterisation of `Scanner::number`: it consumes the maximal
digit run, then a dot and a second maximal digit run only under the
two-character lookahead, and always emits exactly one Number token whose
literal is the parsed value (or the 0 fallback after a diagnostic). -/
theorem Scanner.number_spec (s : Scanner) :
    ∃ s' q e, s.number = some s' ∧ s'.source = s.source ∧ s'.start = s.start ∧
      s.current ≤ s'.current ∧
      (s.current ≤ s.source.length → s'.current ≤ s.source.length) ∧
      s'.line = s.line ∧ nl s.source s'.current = nl s.source s.current ∧
      s'.errors = s.errors ++ e ∧
      s'.tokens = s.tokens ++ [⟨.Number, (s.source.take s'.current).drop s.start,
        some (.Number q), s'.line⟩] := by
  obtain ⟨s1, hrun1, hsrc1, hstart1, htok1, herr1, hline1, hcur1⟩ := Scanner.digits_loop_spec s
  have hnl1 : nl s.source s1.current = nl s.source s.current := by
    rw [hcur1, nl_chunk, take_length_takeWhile, count_nl_takeWhile (by decide)]
    omega
  have hb1 : s.current ≤ s.source.length → s1.current ≤ s.source.length := by
    intro hle
    have := length_takeWhile_drop_le Char.isDigit s.source s.current
    omega
  by_cases hdot : s1.peek = '.' ∧ s1.peek_next.isDigit = true
  · have hlt1 : s1.current < s1.source.length :=
      Scanner.lt_of_peek (p := fun c => c == '.') (by decide) (by rw [hdot.1]; simp)
    have hlt1s : s1.current < s.source.length := by rw [← hsrc1]; exact hlt1
    have hadv := Scanner.advance_of_lt hlt1
    obtain ⟨s3, hrun3, hsrc3, hstart3, htok3, herr3, hline3, hcur3⟩ :=
      Scanner.digits_loop_spec { s1 with current := s1.current + 1 }
    simp only at hsrc3 hstart3 htok3 herr3 hline3 hcur3
    have hx3 : s3.current =
        s1.current + 1 + ((s.source.drop (s1.current + 1)).takeWhile Char.isDigit).length := by
      rw [hcur3, hsrc1]
    have hdotchar : s.source[s1.current] = '.' := by
      have hpk := Scanner.peek_of_lt hlt1
      rw [hdot.1] at hpk
      have hthis : s1.source[s1.current] = '.' := hpk.symm
      simp only [hsrc1] at hthis
      exact hthis
    have hnl2 : nl s.source (s1.current + 1) = nl s.source s1.current := by
      rw [nl_succ s.source hlt1s, hdotchar]
      simp
    have hnl3 : nl s.source s3.current = nl s.source s.current := by
      rw [hx3, nl_chunk, take_length_takeWhile, count_nl_takeWhile (by decide)]
      omega
    have hb3 : s.current ≤ s.source.length → s3.current ≤ s.source.length := by
      intro hle
      have h2 := length_takeWhile_drop_le Char.isDigit s.source (s1.current + 1)
      omega
    have hmono3 : s.current ≤ s3.current := by
      rw [hx3]
      omega
    cases hp : parse_f64 ((s3.source.take s3.current).drop s3.start) with
    | some val =>
      refine ⟨s3.add_token_with_literal .Number (some (.Number val)), val, [],
        ?_, ?_, ?_, ?_, ?_, ?_, ?_, ?_, ?_⟩
      · unfold Scanner.number
        simp only [hrun1]
        rw [if_pos hdot]
        simp only [hadv, hrun3, hp]
      all_goals simp only [Scanner.add_token_with_literal]
      · rw [hsrc3, hsrc1]
      · rw [hstart3, hstart1]
      · exact hmono3
      · exact hb3
      · rw [hline3, hline1]
      · exact hnl3
      · rw [herr3, herr1, List.append_nil]
      · rw [htok3, htok1, hsrc3, hsrc1, hstart3, hstart1]
    | none =>
      refine ⟨(s3.error ("Invalid number: " ++
          String.mk ((s3.source.take s3.current).drop s3.start))).add_token_with_literal
          .Number (some (.Number 0)), 0,
        [(s3.line, "Invalid number: " ++ String.mk ((s3.source.take s3.current).drop s3.start))],
        ?_, ?_, ?_, ?_, ?_, ?_, ?_, ?_, ?_⟩
      · unfold Scanner.number
        simp only [hrun1]
        rw [if_pos hdot]
        simp only [hadv, hrun3, hp]
      all_goals simp only [Scanner.add_token_with_literal, Scanner.error]
      · rw [hsrc3, hsrc1]
      · rw [hstart3, hstart1]
      · exact hmono3
      · exact hb3
      · rw [hline3, hline1]
      · exact hnl3
      · rw [herr3, herr1]
      · rw [htok3, htok1, hsrc3, hsrc1, hstart3, hstart1]
  · cases hp : parse_f64 ((s1.source.take s1.current).drop s1.start) with
    | some val =>
      refine ⟨s1.add_token_with_literal .Number (some (.Number val)), val, [],
        ?_, ?_, ?_, ?_, ?_, ?_, ?_, ?_, ?_⟩
      · unfold Scanner.number
        simp only [hrun1]
        rw [if_neg hdot]
        simp only [hp]
      all_goals simp only [Scanner.add_token_with_literal]
      · rw [hsrc1]
      · rw [hstart1]
      · omega
      · exact hb1
      · rw [hline1]
      · exact hnl1
      · rw [herr1, List.append_nil]
      · rw [htok1, hsrc1, hstart1]
    | none =>
      refine ⟨(s1.error ("Invalid number: " ++
          String.mk ((s1.source.take s1.current).drop s1.start))).add_token_with_literal
          .Number (some (.Number 0)), 0,
        [(s1.line, "Invalid number: " ++ String.mk ((s1.source.take s1.current).drop s1.start))],
        ?_, ?_, ?_, ?_, ?_, ?_, ?_, ?_, ?_⟩
      · unfold Scanner.number
        simp only [hrun1]
        rw [if_neg hdot]
        simp only [hp]
      all_goals simp only [Scanner.add_token_with_literal, Scanner.error]
      · rw [hsrc1]
      · rw [hstart1]
      · omega
      · exact hb1
      · rw [hline1]
      · exact hnl1
      · rw [herr1]
      · rw [htok1, hsrc1, hstart1]

/-- Full characterisation of `Scanner::identifier`: it consumes the
maximal alphanumeric and underscore run and emits exactly one token whose
kind comes from the keyword table and whose literal is the decoded value
for `true`, `false`, `nil` and absent otherwise. -/
theorem Scanner.identifier_spec (s : Scanner) :
    ∃ s' tt lit, s.identifier = some s' ∧ s'.source = s.source ∧ s'.start = s.start ∧
      s.current ≤ s'.current ∧
      (s.current ≤ s.source.length → s'.current ≤ s.source.length) ∧
      s'.line = s.line ∧ nl s.source s'.current = nl s.source s.current ∧
      s'.errors = s.errors ∧
      tt = keyword_type ((s.source.take s'.current).drop s.start) ∧
      (match tt with
       | .False => lit = some (.Bool false)
       | .True => lit = some (.Bool true)
       | .Nil => lit = some .Nil
       | _ => lit = none) ∧
      s'.tokens = s.tokens ++ [⟨tt, (s.source.take s'.current).drop s.start, lit, s'.line⟩] := by
  obtain ⟨s1, hrun1, hsrc1, hstart1, htok1, herr1, hline1, hcur1⟩ := Scanner.ident_loop_spec s
  have hnl1 : nl s.source s1.current = nl s.source s.current := by
    rw [hcur1, nl_chunk, take_length_takeWhile, count_nl_takeWhile (by decide)]
    omega
  have hb1 : s.current ≤ s.source.length → s1.current ≤ s.source.length := by
    intro hle
    have := length_takeWhile_drop_le (fun c => c.isAlphanum || c == '_') s.source s.current
    omega
  refine ⟨s1.add_token_with_literal (keyword_type ((s1.source.take s1.current).drop s1.start))
    (match keyword_type ((s1.source.take s1.current).drop s1.start) with
     | .False => some (.Bool false)
     | .True => some (.Bool true)
     | .Nil => some .Nil
     | _ => none),
    keyword_type ((s1.source.take s1.current).drop s1.start),
    (match keyword_type ((s1.source.take s1.current).drop s1.start) with
     | .False => some (.Bool false)
     | .True => some (.Bool true)
     | .Nil => some .Nil
     | _ => none), ?_, ?_, ?_, ?_, ?_, ?_, ?_, ?_, ?_, ?_, ?_⟩
  · unfold Scanner.identifier
    simp only [hrun1]
  all_goals try simp only [Scanner.add_token_with_literal]
  · rw [hsrc1]
  · rw [hstart1]
  · omega
  · exact hb1
  · rw [hline1]
  · exact hnl1
  · exact herr1
  · rw [hsrc1, hstart1]
  · cases keyword_type ((s1.source.take s1.current).drop s1.start) <;> rfl
  · rw [htok1, hsrc1, hstart1]

/-- The function `keyword_type` never yields the EOF kind. -/
theorem keyword_type_ne_eof (text : List Char) : keyword_type text ≠ .Eof := by
  intro h
  have hmem := keyword_type_mem text
  rw [h] at hmem
  exact absurd hmem (by decide)

/-- The literal attached by `Scanner::identifier` satisfies the
literal-presence discipline. -/
theorem identifier_lit_ok {tt : TokenType} {lit : Option Literal}
    (hmatch : match tt with
      | .False => lit = some (.Bool false)
      | .True => lit = some (.Bool true)
      | .Nil => lit = some .Nil
      | _ => lit = none)
    (hmem : tt ∈ [TokenType.And, .Class, .Else, .False, .Fun, .For, .If,
      .Nil, .Or, .Print, .Return, .Super, .This, .True, .Var, .While, .Identifier])
    (lex : List Char) (ln : Nat) : LitOk ⟨tt, lex, lit, ln⟩ := by
  fin_cases hmem <;> simp_all [LitOk]

/-- Common conclusion of one dispatch step of `scan_token` starting from
`s` (in bounds). -/
def ScanStep (s s' : Scanner) : Prop :=
  s'.source = s.source ∧ s'.start = s.start ∧ s.current < s'.current ∧
    s'.current ≤ s.source.length ∧
    s'.line + nl s.source s.current = s.line + nl s.source s'.current ∧
    (∃ e, s'.errors = s.errors ++ e) ∧
    (s'.tokens = s.tokens ∨
      ∃ t, s'.tokens = s.tokens ++ [t] ∧ t.token_type ≠ .Eof ∧ LitOk t ∧
        t.line = s'.line ∧ t.lexeme = (s.source.take s'.current).drop s.start)

/-- The single-character token branches of `scan_token`. -/
theorem Scanner.simple_token_case (s : Scanner) (hlt : s.current < s.source.length)
    (k : TokenType) (hk : k ≠ .Eof)
    (hko : ∀ lex ln, LitOk ⟨k, lex, none, ln⟩)
    (hcn : s.source[s.current] ≠ '\n') :
    ∃ s', some (Scanner.add_token { s with current := s.current + 1 } k) = some s' ∧
      ScanStep s s' := by
  have hnl : nl s.source (s.current + 1) = nl s.source s.current := by
    rw [nl_succ s.source hlt]
    simp [hcn]
  refine ⟨_, rfl, rfl, rfl, Nat.lt_succ_self _, hlt, ?_, ⟨[], ?_⟩, ?_⟩
  · show s.line + nl s.source s.current = s.line + nl s.source (s.current + 1)
    omega
  · show s.errors = s.errors ++ []
    simp
  · right
    exact ⟨⟨k, (s.source.take (s.current + 1)).drop s.start, none, s.line⟩,
      rfl, hk, hko _ _, rfl, rfl⟩

/-- The two-character lookahead branches (`!`, `=`, `<`, `>`) of
`scan_token`. -/
theorem Scanner.two_char_case (s : Scanner) (hlt : s.current < s.source.length)
    (k1 k2 : TokenType) (hk1 : k1 ≠ .Eof) (hk2 : k2 ≠ .Eof)
    (hko1 : ∀ lex ln, LitOk ⟨k1, lex, none, ln⟩)
    (hko2 : ∀ lex ln, LitOk ⟨k2, lex, none, ln⟩)
    (hcn : s.source[s.current] ≠ '\n') :
    ∃ s', (match Scanner.match_char { s with current := s.current + 1 } '=' with
           | none => none
           | some (matched, s2) => some (s2.add_token (if matched then k1 else k2))) = some s' ∧
      ScanStep s s' := by
  have hnl : nl s.source (s.current + 1) = nl s.source s.current := by
    rw [nl_succ s.source hlt]
    simp [hcn]
  obtain ⟨b, s2, hmc, hmsrc, hmstart, hmline, hmtok, hmerr, hcases⟩ :=
    Scanner.match_char_spec { s with current := s.current + 1 } '='
  simp only at hmsrc hmstart hmline hmtok hmerr
  rcases hcases with ⟨hb, rfl⟩ | ⟨hb, hltm, hcurm, hcharm⟩
  · subst hb
    simp only [hmc]
    refine ⟨_, rfl, rfl, rfl, Nat.lt_succ_self _, hlt, ?_, ⟨[], ?_⟩, ?_⟩
    · show s.line + nl s.source s.current = s.line + nl s.source (s.current + 1)
      omega
    · show s.errors = s.errors ++ []
      simp
    · right
      exact ⟨⟨k2, (s.source.take (s.current + 1)).drop s.start, none, s.line⟩,
        rfl, hk2, hko2 _ _, rfl, rfl⟩
  · subst hb
    simp only at hltm hcurm hcharm
    have hchar2 : s.source[s.current + 1] = '=' := by
      rw [List.getElem?_eq_getElem hltm] at hcharm
      exact Option.some.inj hcharm
    have hnl2 : nl s.source (s.current + 1 + 1) = nl s.source (s.current + 1) := by
      rw [nl_succ s.source hltm, hchar2]
      simp
    simp only [hmc]
    refine ⟨s2.add_token k1, by simp, ?_, ?_, ?_, ?_, ?_, ?_, ?_⟩
    all_goals simp only [Scanner.add_token, Scanner.add_token_with_literal]
    · rw [hmsrc]
    · rw [hmstart]
    · rw [hcurm]
      omega
    · rw [hcurm]
      omega
    · rw [hmline, hcurm]
      omega
    · exact ⟨[], by rw [hmerr]; simp⟩
    · right
      exact ⟨⟨k1, (s2.source.take s2.current).drop s2.start, none, s2.line⟩,
        by rw [hmtok], hk1, hko1 _ _, rfl, by rw [hmsrc, hmstart]⟩


/-- One dispatch step of `scan_token` from an in-bounds cursor: it
succeeds, strictly advances within bounds, keeps `start` and the line
accounting, only appends diagnostics, and emits at most one token, which
is never EOF, satisfies the literal discipline, and carries the current
line and the `start..current` lexeme. -/
theorem Scanner.scan_token_spec (s : Scanner) (hlt : s.current < s.source.length) :
    ∃ s', s.scan_token = some s' ∧ ScanStep s s' := by
  have hadv := Scanner.advance_of_lt hlt
  unfold Scanner.scan_token
  simp only [hadv]
  by_cases h1 : s.source[s.current] = '('
  · rw [if_pos h1]
    exact Scanner.simple_token_case s hlt .LeftParen (by decide)
      (fun lex ln => by simp [LitOk]) (by rw [h1]; decide)
  rw [if_neg h1]
  by_cases h2 : s.source[s.current] = ')'
  · rw [if_pos h2]
    exact Scanner.simple_token_case s hlt .RightParen (by decide)
      (fun lex ln => by simp [LitOk]) (by rw [h2]; decide)
  rw [if_neg h2]
  by_cases h3 : s.source[s.current] = '\x7b'
  · rw [if_pos h3]
    exact Scanner.simple_token_case s hlt .LeftBrace (by decide)
      (fun lex ln => by simp [LitOk]) (by rw [h3]; decide)
  rw [if_neg h3]
  by_cases h4 : s.source[s.current] = '\x7d'
  · rw [if_pos h4]
    exact Scanner.simple_token_case s hlt .RightBrace (by decide)
      (fun lex ln => by simp [LitOk]) (by rw [h4]; decide)
  rw [if_neg h4]
  by_cases h5 : s.source[s.current] = ','
  · rw [if_pos h5]
    exact Scanner.simple_token_case s hlt .Comma (by decide)
      (fun lex ln => by simp [LitOk]) (by rw [h5]; decide)
  rw [if_neg h5]
  by_cases h6 : s.source[s.current] = '.'
  · rw [if_pos h6]
    exact Scanner.simple_token_case s hlt .Dot (by decide)
      (fun lex ln => by simp [LitOk]) (by rw [h6]; decide)
  rw [if_neg h6]
  by_cases h7 : s.source[s.current] = '-'
  · rw [if_pos h7]
    exact Scanner.simple_token_case s hlt .Minus (by decide)
      (fun lex ln => by simp [LitOk]) (by rw [h7]; decide)
  rw [if_neg h7]
  by_cases h8 : s.source[s.current] = '+'
  · rw [if_pos h8]
    exact Scanner.simple_token_case s hlt .Plus (by decide)
      (fun lex ln => by simp [LitOk]) (by rw [h8]; decide)
  rw [if_neg h8]
  by_cases h9 : s.source[s.current] = ';'
  · rw [if_pos h9]
    exact Scanner.simple_token_case s hlt .Semicolon (by decide)
      (fun lex ln => by simp [LitOk]) (by rw [h9]; decide)
  rw [if_neg h9]
  by_cases h10 : s.source[s.current] = '*'
  · rw [if_pos h10]
    exact Scanner.simple_token_case s hlt .Star (by decide)
      (fun lex ln => by simp [LitOk]) (by rw [h10]; decide)
  rw [if_neg h10]
  by_cases h11 : s.source[s.current] = '!'
  · rw [if_pos h11]
    exact Scanner.two_char_case s hlt .BangEqual .Bang (by decide) (by decide)
      (fun lex ln => by simp [LitOk]) (fun lex ln => by simp [LitOk]) (by rw [h11]; decide)
  rw [if_neg h11]
  by_cases h12 : s.source[s.current] = '='
  · rw [if_pos h12]
    exact Scanner.two_char_case s hlt .EqualEqual .Equal (by decide) (by decide)
      (fun lex ln => by simp [LitOk]) (fun lex ln => by simp [LitOk]) (by rw [h12]; decide)
  rw [if_neg h12]
  by_cases h13 : s.source[s.current] = '<'
  · rw [if_pos h13]
    exact Scanner.two_char_case s hlt .LessEqual .Less (by decide) (by decide)
      (fun lex ln => by simp [LitOk]) (fun lex ln => by simp [LitOk]) (by rw [h13]; decide)
  rw [if_neg h13]
  by_cases h14 : s.source[s.current] = '>'
  · rw [if_pos h14]
    exact Scanner.two_char_case s hlt .GreaterEqual .Greater (by decide) (by decide)
      (fun lex ln => by simp [LitOk]) (fun lex ln => by simp [LitOk]) (by rw [h14]; decide)
  rw [if_neg h14]
  by_cases h15 : s.source[s.current] = '/'
  · rw [if_pos h15]
    have hnl : nl s.source (s.current + 1) = nl s.source s.current := by
      rw [nl_succ s.source hlt, h15]
      simp
    obtain ⟨b, s2, hmc, hmsrc, hmstart, hmline, hmtok, hmerr, hcases⟩ :=
      Scanner.match_char_spec { s with current := s.current + 1 } '/'
    simp only at hmsrc hmstart hmline hmtok hmerr
    simp only [hmc]
    rcases hcases with ⟨hb, rfl⟩ | ⟨hb, hltm, hcurm, hcharm⟩
    · -- no second slash: try a block comment opener
      subst hb
      obtain ⟨b2, s3, hmc2, hmsrc2, hmstart2, hmline2, hmtok2, hmerr2, hcases2⟩ :=
        Scanner.match_char_spec { s with current := s.current + 1 } '*'
      simp only at hmsrc2 hmstart2 hmline2 hmtok2 hmerr2
      simp only [hmc2]
      rcases hcases2 with ⟨hb2, rfl⟩ | ⟨hb2, hltm2, hcurm2, hcharm2⟩
      · -- plain division token
        subst hb2
        simp only [if_neg (by decide : ¬(false = true))]
        exact Scanner.simple_token_case s hlt .Slash (by decide)
          (fun lex ln => by simp [LitOk]) (by rw [h15]; decide)
      · -- block comment
        subst hb2
        simp only at hltm2 hcurm2 hcharm2
        have hchar2 : s.source[s.current + 1] = '*' := by
          rw [List.getElem?_eq_getElem hltm2] at hcharm2
          exact Option.some.inj hcharm2
        have hnl2 : nl s.source (s.current + 1 + 1) = nl s.source (s.current + 1) := by
          rw [nl_succ s.source hltm2, hchar2]
          simp
        simp only [if_pos rfl]
        obtain ⟨s4, hrun, hsrc4, hstart4, htok4, hmono4, hbound4, hline4, herr4⟩ :=
          Scanner.block_comment_loop_spec s3 1
        rw [hmsrc2] at hsrc4 hbound4 hline4
        refine ⟨s4, ?_, ?_, ?_, ?_, ?_, ?_, ?_, ?_⟩
        · unfold Scanner.block_comment
          exact hrun
        · exact hsrc4
        · rw [hstart4, hmstart2]
        · rw [hcurm2] at hmono4
          omega
        · rw [hcurm2] at hbound4
          apply hbound4
          omega
        · rw [hmline2] at hline4
          rw [hcurm2] at hline4
          omega
        · rcases herr4 with he | ⟨he, hc⟩
          · exact ⟨[], by rw [he, hmerr2]; simp⟩
          · exact ⟨[(s4.line, "Unterminated block comment")], by rw [he, hmerr2]⟩
        · left
          rw [htok4, hmtok2]
    · -- line comment
      subst hb
      simp only at hltm hcurm hcharm
      have hchar2 : s.source[s.current + 1] = '/' := by
        rw [List.getElem?_eq_getElem hltm] at hcharm
        exact Option.some.inj hcharm
      have hnl2 : nl s.source (s.current + 1 + 1) = nl s.source (s.current + 1) := by
        rw [nl_succ s.source hltm, hchar2]
        simp
      simp only [if_pos rfl]
      obtain ⟨s4, hrun, hsrc4, hstart4, htok4, herr4, hline4, hcur4⟩ :=
        Scanner.line_comment_spec s2
      refine ⟨s4, hrun, ?_, ?_, ?_, ?_, ?_, ?_, ?_⟩
      · rw [hsrc4, hmsrc]
      · rw [hstart4, hmstart]
      · rw [hcur4, hcurm]
        omega
      · rw [hcur4, hcurm, hmsrc]
        have := length_takeWhile_drop_le (fun c => c != '\n') s.source (s.current + 1 + 1)
        omega
      · rw [hline4, hmline, hcur4, hcurm, hmsrc]
        rw [nl_chunk s.source (s.current + 1 + 1), take_length_takeWhile,
          count_nl_takeWhile (by decide)]
        omega
      · exact ⟨[], by rw [herr4, hmerr]; simp⟩
      · left
        rw [htok4, hmtok]
  rw [if_neg h15]
  by_cases h16 : s.source[s.current] = ' ' ∨ s.source[s.current] = '\r' ∨ s.source[s.current] = '\t'
  · rw [if_pos h16]
    have hcn : s.source[s.current] ≠ '\n' := by
      rcases h16 with hx | hx | hx <;> (rw [hx]; decide)
    refine ⟨_, rfl, rfl, rfl, Nat.lt_succ_self _, hlt, ?_, ⟨[], by simp⟩, Or.inl rfl⟩
    show s.line + nl s.source s.current = s.line + nl s.source (s.current + 1)
    rw [nl_succ s.source hlt]
    simp [hcn]
  rw [if_neg h16]
  by_cases h17 : s.source[s.current] = '\n'
  · rw [if_pos h17]
    refine ⟨_, rfl, rfl, rfl, Nat.lt_succ_self _, hlt, ?_, ⟨[], by simp⟩, Or.inl rfl⟩
    show (s.line + 1) + nl s.source s.current = s.line + nl s.source (s.current + 1)
    rw [nl_succ s.source hlt, if_pos h17]
    omega
  rw [if_neg h17]
  by_cases h18 : s.source[s.current] = '"'
  · rw [if_pos h18]
    have hnl : nl s.source (s.current + 1) = nl s.source s.current := by
      rw [nl_succ s.source hlt, h18]
      simp
    obtain ⟨s4, hrun, hsrc4, hstart4, hmono4, hbound4, hline4, hrest⟩ :=
      Scanner.string_spec { s with current := s.current + 1 }
    simp only at hsrc4 hstart4 hmono4 hbound4 hline4 hrest
    refine ⟨s4, hrun, hsrc4, hstart4, by omega, hbound4 (by omega), by omega, ?_, ?_⟩
    · by_cases hmem : '"' ∈ s.source.drop (s.current + 1)
      · rw [if_pos hmem] at hrest
        exact ⟨[], by rw [hrest.1]; simp⟩
      · rw [if_neg hmem] at hrest
        exact ⟨[(s4.line, "Unterminated string")], hrest.2⟩
    · by_cases hmem : '"' ∈ s.source.drop (s.current + 1)
      · rw [if_pos hmem] at hrest
        right
        exact ⟨_, hrest.2.2, fun hx => TokenType.noConfusion hx, ⟨_, rfl⟩, rfl, rfl⟩
      · rw [if_neg hmem] at hrest
        left
        exact hrest.1
  rw [if_neg h18]
  by_cases h19 : s.source[s.current].isDigit = true
  · rw [if_pos h19]
    have hnl : nl s.source (s.current + 1) = nl s.source s.current := by
      rw [nl_succ s.source hlt]
      have : s.source[s.current] ≠ '\n' := by
        intro hx
        rw [hx] at h19
        exact absurd h19 (by decide)
      simp [this]
    obtain ⟨s4, q, e, hrun, hsrc4, hstart4, hmono4, hbound4, hline4, hnl4, herr4, htok4⟩ :=
      Scanner.number_spec { s with current := s.current + 1 }
    simp only at hsrc4 hstart4 hmono4 hbound4 hline4 hnl4 herr4 htok4
    refine ⟨s4, hrun, hsrc4, hstart4, by omega, hbound4 (by omega), by rw [hline4]; omega,
      ⟨e, herr4⟩, ?_⟩
    right
    exact ⟨_, htok4, fun hx => TokenType.noConfusion hx, ⟨q, rfl⟩, rfl, rfl⟩
  rw [if_neg h19]
  by_cases h20 : s.source[s.current].isAlpha = true ∨ s.source[s.current] = '_'
  · rw [if_pos h20]
    have hnl : nl s.source (s.current + 1) = nl s.source s.current := by
      rw [nl_succ s.source hlt]
      have : s.source[s.current] ≠ '\n' := by
        rcases h20 with hx | hx
        · intro hy
          rw [hy] at hx
          exact absurd hx (by decide)
        · rw [hx]; decide
      simp [this]
    obtain ⟨s4, tt, lit, hrun, hsrc4, hstart4, hmono4, hbound4, hline4, hnl4, herr4,
      htt, hmatch, htok4⟩ := Scanner.identifier_spec { s with current := s.current + 1 }
    simp only at hsrc4 hstart4 hmono4 hbound4 hline4 hnl4 herr4 htt htok4
    refine ⟨s4, hrun, hsrc4, hstart4, by omega, hbound4 (by omega), by rw [hline4]; omega,
      ⟨[], by rw [herr4]; simp⟩, ?_⟩
    right
    refine ⟨_, htok4, ?_, ?_, rfl, rfl⟩
    · rw [htt]
      exact keyword_type_ne_eof _
    · have hmem : tt ∈ [TokenType.And, .Class, .Else, .False, .Fun, .For, .If,
          .Nil, .Or, .Print, .Return, .Super, .This, .True, .Var, .While, .Identifier] := by
        rw [htt]
        exact keyword_type_mem _
      exact identifier_lit_ok hmatch hmem _ _
  rw [if_neg h20]
  refine ⟨_, rfl, rfl, rfl, Nat.lt_succ_self _, hlt, ?_,
    ⟨[(s.line, "Unexpected character")], by simp [Scanner.error]⟩, Or.inl rfl⟩
  show s.line + nl s.source s.current = s.line + nl s.source (s.current + 1)
  rw [nl_succ s.source hlt]
  simp [h17]

/-- Adequate fuel runs the scan loop to the end of the input: the loop
succeeds, stops exactly at `source.length`, accounts lines, only appends
diagnostics, and appends only non-EOF tokens obeying the literal
discipline. -/
theorem Scanner.scan_loop_spec : ∀ (fuel : Nat) (s : Scanner),
    s.source.length - s.current ≤ fuel → s.current ≤ s.source.length →
    ∃ s', s.scan_loop fuel = some s' ∧ s'.source = s.source ∧
      s'.current = s.source.length ∧
      s'.line + nl s.source s.current = s.line + nl s.source s'.current ∧
      (∃ e, s'.errors = s.errors ++ e) ∧
      ∃ new, s'.tokens = s.tokens ++ new ∧
        ∀ t ∈ new, t.token_type ≠ .Eof ∧ LitOk t := by
  intro fuel
  induction fuel with
  | zero =>
    intro s hfuel hle
    have hcur : s.current = s.source.length := by omega
    have hae : s.is_at_end = true := Scanner.is_at_end_true.mpr (by omega)
    refine ⟨s, ?_, rfl, hcur.symm ▸ rfl, rfl, ⟨[], by simp⟩, ⟨[], by simp, by simp⟩⟩
    unfold Scanner.scan_loop
    rw [if_pos hae]
  | succ fuel ih =>
    intro s hfuel hle
    by_cases hae : s.is_at_end = true
    · have hcur : s.current = s.source.length := by
        have := Scanner.is_at_end_true.mp hae
        omega
      refine ⟨s, ?_, rfl, hcur.symm ▸ rfl, rfl, ⟨[], by simp⟩, ⟨[], by simp, by simp⟩⟩
      unfold Scanner.scan_loop
      rw [if_pos hae]
    · have hlt : s.current < s.source.length := by
        rcases Nat.lt_or_ge s.current s.source.length with h | h
        · exact h
        · exact absurd (Scanner.is_at_end_true.mpr h) hae
      obtain ⟨s2, hrun2, hsrc2, hstart2, hmono2, hbound2, hline2, herr2, htoks2⟩ :=
        Scanner.scan_token_spec { s with start := s.current } hlt
      simp only at hsrc2 hstart2 hmono2 hbound2 hline2 herr2 htoks2
      obtain ⟨s3, hrun3, hsrc3, hcur3, hline3, ⟨e3, herr3⟩, ⟨new3, htok3, hgood3⟩⟩ :=
        ih s2 (by rw [hsrc2]; omega) (by rw [hsrc2]; exact hbound2)
      rw [hsrc2] at hsrc3 hcur3 hline3
      refine ⟨s3, ?_, hsrc3, hcur3, ?_, ?_, ?_⟩
      · unfold Scanner.scan_loop
        rw [if_neg hae]
        simp only [hrun2]
        exact hrun3
      · omega
      · obtain ⟨e2, he2⟩ := herr2
        exact ⟨e2 ++ e3, by rw [herr3, he2, List.append_assoc]⟩
      · rcases htoks2 with hsame | ⟨t, ht, htne, htlit, _, _⟩
        · exact ⟨new3, by rw [htok3, hsame], hgood3⟩
        · refine ⟨t :: new3, by rw [htok3, ht]; simp, ?_⟩
          intro u hu
          rcases List.mem_cons.mp hu with rfl | hu2
          · exact ⟨htne, htlit⟩
          · exact hgood3 u hu2

/-- A full scan from a fresh scanner: it succeeds, consumes the whole
input, ends with `line = 1 +` the newline count of the source, and the
token list is non-EOF literal-disciplined tokens followed by exactly the
final EOF token. -/
theorem scan_spec (src : List Char) :
    ∃ out, scan src = some out ∧ out.source = src ∧
      out.current = src.length ∧
      out.line = 1 + src.count '\n' ∧
      ∃ pre, out.tokens = pre ++ [⟨.Eof, [], none, out.line⟩] ∧
        ∀ t ∈ pre, t.token_type ≠ .Eof ∧ LitOk t := by
  obtain ⟨s1, hrun, hsrc, hcur, hline, ⟨e, herr⟩, ⟨new, htok, hgood⟩⟩ :=
    Scanner.scan_loop_spec ((Scanner.new src).source.length - (Scanner.new src).current)
      (Scanner.new src) (le_refl _) (by simp [Scanner.new])
  simp only [Scanner.new] at hsrc hcur hline htok
  refine ⟨{ s1 with tokens := s1.tokens ++ [⟨.Eof, [], none, s1.line⟩] }, ?_, hsrc, hcur, ?_, ?_⟩
  · unfold scan Scanner.scan_tokens
    simp only [hrun]
  · show s1.line = 1 + src.count '\n'
    rw [nl_zero] at hline
    rw [hcur] at hline
    rw [nl_of_le src (le_refl _)] at hline
    omega
  · exact ⟨new, by simp [htok], hgood⟩

/-- The function `match_char` on the expected character in bounds: consumes it. -/
theorem Scanner.match_char_true {s : Scanner} {e : Char}
    (hlt : s.current < s.source.length) (hc : s.source[s.current] = e) :
    s.match_char e = some (true, { s with current := s.current + 1 }) := by
  unfold Scanner.match_char
  rw [if_neg (by rw [Bool.not_eq_true, Scanner.is_at_end_false]; exact hlt),
    List.getElem?_eq_getElem hlt]
  simp [hc]

/-- The function `match_char` on a differing character: no consumption. -/
theorem Scanner.match_char_false {s : Scanner} {e : Char}
    (hlt : s.current < s.source.length) (hc : s.source[s.current] ≠ e) :
    s.match_char e = some (false, s) := by
  unfold Scanner.match_char
  rw [if_neg (by rw [Bool.not_eq_true, Scanner.is_at_end_false]; exact hlt),
    List.getElem?_eq_getElem hlt]
  simp [hc]

/-- The function `match_char` at end of input: no consumption. -/
theorem Scanner.match_char_at_end {s : Scanner} {e : Char}
    (h : s.source.length ≤ s.current) :
    s.match_char e = some (false, s) := by
  unfold Scanner.match_char
  rw [if_pos (Scanner.is_at_end_true.mpr h)]

/-- One-step unfolding of `trivia_scan` at positive depth on a nonempty
suffix. -/
theorem trivia_scan_block_eq (c : Char) (cs : List Char) (n : Nat) :
    trivia_scan (c :: cs) (n + 1) =
      (if c = '/' ∧ cs.head? = some '*' then trivia_scan (cs.drop 1) (n + 2)
       else if c = '*' ∧ cs.head? = some '/' then trivia_scan (cs.drop 1) n
       else trivia_scan cs (n + 1)) := by
  simp only [trivia_scan]

/-- One-step unfolding of `trivia_scan` at top level on a nonempty
suffix. -/
theorem trivia_scan_top_eq (c : Char) (cs : List Char) :
    trivia_scan (c :: cs) 0 =
      (if c = ' ' ∨ c = '\r' ∨ c = '\t' ∨ c = '\n' then trivia_scan cs 0
       else if c = '/' ∧ cs.head? = some '/' then
         trivia_scan ((cs.drop 1).dropWhile (fun x => x != '\n')) 0
       else if c = '/' ∧ cs.head? = some '*' then trivia_scan (cs.drop 1) 1
       else false) := by
  simp only [trivia_scan]

/-- Running the block-comment loop inside a region that `trivia_scan`
accepts at positive depth: the loop closes the comment, touching nothing
but cursor and line, and leaves a residue that is again all trivia. -/
theorem Scanner.block_trivia_aux : ∀ (m : Nat) (s : Scanner) (n : Nat),
    s.source.length - s.current ≤ m →
    trivia_scan (s.source.drop s.current) (n + 1) = true →
    ∃ s', s.block_comment_loop (n + 1) = some s' ∧ s'.source = s.source ∧
      s'.start = s.start ∧ s'.tokens = s.tokens ∧ s'.errors = s.errors ∧
      s.current < s'.current ∧ s'.current ≤ s.source.length ∧
      trivia_scan (s.source.drop s'.current) 0 = true := by
  intro m
  induction m with
  | zero =>
    intro s n hm htr
    exfalso
    rw [List.drop_eq_nil_of_le (by omega)] at htr
    simp [trivia_scan] at htr
  | succ m ih =>
    intro s n hm htr
    cases hdrop : s.source.drop s.current with
    | nil =>
      exfalso
      rw [hdrop] at htr
      simp [trivia_scan] at htr
    | cons c cs =>
      have hlt : s.current < s.source.length := by
        by_contra hge
        rw [List.drop_eq_nil_of_le (by omega)] at hdrop
        cases hdrop
      have hchar : s.source[s.current] = c := by
        have := (drop_cons hdrop).1
        rw [List.getElem?_eq_getElem hlt] at this
        exact Option.some.inj this
      have hdrop1 : s.source.drop (s.current + 1) = cs := (drop_cons hdrop).2
      have hpeek : s.peek = c := Scanner.peek_of_drop hdrop
      have hgf : (0 < n + 1 ∧ s.is_at_end = false) :=
        ⟨Nat.succ_pos n, Scanner.is_at_end_false.mpr hlt⟩
      cases cs with
      | nil =>
        exfalso
        rw [hdrop] at htr
        simp [trivia_scan] at htr
      | cons d cs2 =>
        have hdrop2 : s.source.drop (s.current + 2) = cs2 := by
          have := (drop_cons hdrop1).2
          rwa [show s.current + 1 + 1 = s.current + 2 by omega] at this
        have hlt2 : s.current + 1 < s.source.length := by
          by_contra hge
          rw [List.drop_eq_nil_of_le (by omega)] at hdrop1
          cases hdrop1
        have hchar2 : s.source[s.current + 1] = d := by
          have := (drop_cons hdrop1).1
          rw [List.getElem?_eq_getElem hlt2] at this
          exact Option.some.inj this
        have hpn : s.peek_next = d := Scanner.peek_next_of_drop hdrop
        rw [hdrop, trivia_scan_block_eq] at htr
        simp only [List.head?_cons, Option.some.injEq, List.drop_one,
          List.tail_cons] at htr
        by_cases hoc : c = '/' ∧ d = '*'
        · rw [if_pos hoc] at htr
          obtain ⟨s', hrun, hsrc, hstart, htok, herr, hmono, hbound, htr'⟩ :=
            ih { s with current := s.current + 2 } (n + 1) (by simp; omega)
              (by show trivia_scan (s.source.drop (s.current + 2)) (n + 1 + 1) = true
                  rw [hdrop2]
                  exact htr)
          simp only at hsrc hstart htok herr hmono hbound htr'
          refine ⟨s', ?_, hsrc, hstart, htok, herr, by omega, hbound, htr'⟩
          rw [Scanner.block_comment_loop, dif_pos hgf,
            if_pos ⟨by rw [hpeek, hoc.1], by rw [hpn, hoc.2]⟩,
            Scanner.advance_of_lt hlt,
            Scanner.advance_of_lt (s := { s with current := s.current + 1 }) hlt2]
          exact hrun
        · rw [if_neg hoc] at htr
          by_cases hcc : c = '*' ∧ d = '/'
          · rw [if_pos hcc] at htr
            have hopen : ¬(s.peek = '/' ∧ s.peek_next = '*') := by
              rw [hpeek, hpn]
              intro hx
              rw [hcc.1] at hx
              exact absurd hx.1 (by decide)
            cases n with
            | zero =>
              refine ⟨{ s with current := s.current + 2 }, ?_, rfl, rfl, rfl, rfl,
                by simp, by simp; omega, by
                  show trivia_scan (s.source.drop (s.current + 2)) 0 = true
                  rw [hdrop2]
                  exact htr⟩
              rw [Scanner.block_comment_loop, dif_pos hgf, if_neg hopen,
                if_pos ⟨by rw [hpeek, hcc.1], by rw [hpn, hcc.2]⟩,
                Scanner.advance_of_lt hlt,
                Scanner.advance_of_lt (s := { s with current := s.current + 1 }) hlt2]
              rw [Scanner.block_comment_loop]
              simp
            | succ k =>
              obtain ⟨s', hrun, hsrc, hstart, htok, herr, hmono, hbound, htr'⟩ :=
                ih { s with current := s.current + 2 } k (by simp; omega)
                  (by show trivia_scan (s.source.drop (s.current + 2)) (k + 1) = true
                      rw [hdrop2]
                      exact htr)
              simp only at hsrc hstart htok herr hmono hbound htr'
              refine ⟨s', ?_, hsrc, hstart, htok, herr, by omega, hbound, htr'⟩
              rw [Scanner.block_comment_loop, dif_pos hgf, if_neg hopen,
                if_pos ⟨by rw [hpeek, hcc.1], by rw [hpn, hcc.2]⟩,
                Scanner.advance_of_lt hlt,
                Scanner.advance_of_lt (s := { s with current := s.current + 1 }) hlt2]
              rw [show k + 1 + 1 - 1 = k + 1 by omega]
              exact hrun
          · rw [if_neg hcc] at htr
            have hopen : ¬(s.peek = '/' ∧ s.peek_next = '*') := by
              rw [hpeek, hpn]
              intro hx
              exact hoc hx
            have hclose : ¬(s.peek = '*' ∧ s.peek_next = '/') := by
              rw [hpeek, hpn]
              intro hx
              exact hcc hx
            obtain ⟨s', hrun, hsrc, hstart, htok, herr, hmono, hbound, htr'⟩ :=
              ih { s with current := s.current + 1,
                          line := s.line + (if s.peek = '\n' then 1 else 0) } n
                (by simp; omega)
                (by show trivia_scan (s.source.drop (s.current + 1)) (n + 1) = true
                    rw [hdrop1]
                    exact htr)
            simp only at hsrc hstart htok herr hmono hbound htr'
            refine ⟨s', ?_, hsrc, hstart, htok, herr, by omega, hbound, htr'⟩
            rw [Scanner.block_comment_loop, dif_pos hgf, if_neg hopen, if_neg hclose,
              Scanner.advance_of_lt
                (s := { s with line := s.line + (if s.peek = '\n' then 1 else 0) }) hlt]
            exact hrun

/-- The function `scan_token` on a space, carriage return or tab just advances. -/
theorem Scanner.scan_token_ws (s : Scanner) (hlt : s.current < s.source.length)
    (hc : s.source[s.current] = ' ' ∨ s.source[s.current] = '\r' ∨
      s.source[s.current] = '\t') :
    s.scan_token = some { s with current := s.current + 1 } := by
  unfold Scanner.scan_token
  rw [Scanner.advance_of_lt hlt]
  rcases hc with hc | hc | hc <;> simp [hc]

/-- The function `scan_token` on a newline advances and counts the line. -/
theorem Scanner.scan_token_nl (s : Scanner) (hlt : s.current < s.source.length)
    (hc : s.source[s.current] = '\n') :
    s.scan_token = some { s with current := s.current + 1, line := s.line + 1 } := by
  unfold Scanner.scan_token
  rw [Scanner.advance_of_lt hlt]
  simp [hc]

/-- The function `scan_token` on `//` runs the line-comment loop from past the two
slashes. -/
theorem Scanner.scan_token_lc (s : Scanner) (hlt : s.current < s.source.length)
    (hc : s.source[s.current] = '/')
    (hlt2 : s.current + 1 < s.source.length)
    (hc2 : s.source[s.current + 1] = '/') :
    s.scan_token = Scanner.line_comment { s with current := s.current + 2 } := by
  unfold Scanner.scan_token
  rw [Scanner.advance_of_lt hlt]
  have hmc := Scanner.match_char_true (s := { s with current := s.current + 1 })
    (e := '/') hlt2 hc2
  simp [hc, hmc, show s.current + 1 + 1 = s.current + 2 by omega]

/-- The function `scan_token` on `/*` runs the block-comment loop from past the
opener. -/
theorem Scanner.scan_token_bc (s : Scanner) (hlt : s.current < s.source.length)
    (hc : s.source[s.current] = '/')
    (hlt2 : s.current + 1 < s.source.length)
    (hc2 : s.source[s.current + 1] = '*') :
    s.scan_token = Scanner.block_comment { s with current := s.current + 2 } := by
  unfold Scanner.scan_token
  rw [Scanner.advance_of_lt hlt]
  have hmc := Scanner.match_char_false (s := { s with current := s.current + 1 })
    (e := '/') hlt2 (by rw [hc2]; decide)
  have hmc2 := Scanner.match_char_true (s := { s with current := s.current + 1 })
    (e := '*') hlt2 hc2
  simp [hc, hmc, hmc2, show s.current + 1 + 1 = s.current + 2 by omega]

/-- The scan loop over a suffix that is all trivia (whitespace, line
comments, balanced block comments) emits no token and no diagnostic. -/
theorem Scanner.scan_trivia_aux : ∀ (m fuel : Nat) (s : Scanner),
    s.source.length - s.current ≤ m → s.source.length - s.current ≤ fuel →
    trivia_scan (s.source.drop s.current) 0 = true →
    ∃ s', s.scan_loop fuel = some s' ∧ s'.tokens = s.tokens ∧ s'.errors = s.errors := by
  intro m
  induction m with
  | zero =>
    intro fuel s hm hf htr
    have hae : s.is_at_end = true := Scanner.is_at_end_true.mpr (by omega)
    cases fuel with
    | zero => exact ⟨s, by unfold Scanner.scan_loop; rw [if_pos hae], rfl, rfl⟩
    | succ f => exact ⟨s, by unfold Scanner.scan_loop; rw [if_pos hae], rfl, rfl⟩
  | succ m ih =>
    intro fuel s hm hf htr
    cases hdrop : s.source.drop s.current with
    | nil =>
      have hae : s.is_at_end = true :=
        Scanner.is_at_end_true.mpr (Scanner.at_end_of_drop_nil hdrop)
      cases fuel with
      | zero => exact ⟨s, by unfold Scanner.scan_loop; rw [if_pos hae], rfl, rfl⟩
      | succ f => exact ⟨s, by unfold Scanner.scan_loop; rw [if_pos hae], rfl, rfl⟩
    | cons c cs =>
      have hlt : s.current < s.source.length := by
        by_contra hge
        rw [List.drop_eq_nil_of_le (by omega)] at hdrop
        cases hdrop
      have hchar : s.source[s.current] = c := by
        have := (drop_cons hdrop).1
        rw [List.getElem?_eq_getElem hlt] at this
        exact Option.some.inj this
      have hdrop1 : s.source.drop (s.current + 1) = cs := (drop_cons hdrop).2
      have hae : s.is_at_end = false := Scanner.is_at_end_false.mpr hlt
      have haen : ¬(s.is_at_end = true) := by rw [hae]; exact Bool.false_ne_true
      cases fuel with
      | zero =>
        exfalso
        omega
      | succ f =>
        rw [hdrop, trivia_scan_top_eq] at htr
        by_cases hws : c = ' ' ∨ c = '\r' ∨ c = '\t' ∨ c = '\n'
        · rw [if_pos hws] at htr
          by_cases hnl : c = '\n'
          · have hst := Scanner.scan_token_nl { s with start := s.current } hlt
              (by show s.source[s.current] = '\n'; rw [hchar, hnl])
            obtain ⟨s', hrun, htok, herr⟩ :=
              ih f { s with start := s.current, current := s.current + 1, line := s.line + 1 }
                (by simp; omega) (by simp; omega)
                (by show trivia_scan (s.source.drop (s.current + 1)) 0 = true
                    rw [hdrop1]; exact htr)
            refine ⟨s', ?_, htok, herr⟩
            unfold Scanner.scan_loop
            rw [if_neg haen]
            simp only [hst]
            exact hrun
          · have hcw : s.source[s.current] = ' ' ∨ s.source[s.current] = '\r' ∨
                s.source[s.current] = '\t' := by
              rw [hchar]
              rcases hws with h | h | h | h
              · exact Or.inl h
              · exact Or.inr (Or.inl h)
              · exact Or.inr (Or.inr h)
              · exact absurd h hnl
            have hst := Scanner.scan_token_ws { s with start := s.current } hlt hcw
            obtain ⟨s', hrun, htok, herr⟩ :=
              ih f { s with start := s.current, current := s.current + 1 }
                (by simp; omega) (by simp; omega)
                (by show trivia_scan (s.source.drop (s.current + 1)) 0 = true
                    rw [hdrop1]; exact htr)
            refine ⟨s', ?_, htok, herr⟩
            unfold Scanner.scan_loop
            rw [if_neg haen]
            simp only [hst]
            exact hrun
        · rw [if_neg hws] at htr
          by_cases hll : c = '/' ∧ cs.head? = some '/'
          · rw [if_pos hll] at htr
            cases cs with
            | nil => exact absurd hll.2 (by simp)
            | cons d cs2 =>
              have hd : d = '/' := by simpa using hll.2
              have hlt2 : s.current + 1 < s.source.length := by
                by_contra hge
                rw [List.drop_eq_nil_of_le (by omega)] at hdrop1
                cases hdrop1
              have hchar2 : s.source[s.current + 1] = '/' := by
                have := (drop_cons hdrop1).1
                rw [List.getElem?_eq_getElem hlt2] at this
                rw [Option.some.inj this, hd]
              have hdrop2 : s.source.drop (s.current + 2) = cs2 := by
                have := (drop_cons hdrop1).2
                rwa [show s.current + 1 + 1 = s.current + 2 by omega] at this
              simp only [List.drop_one, List.tail_cons] at htr
              have hst := Scanner.scan_token_lc { s with start := s.current } hlt
                (by show s.source[s.current] = '/'; rw [hchar, hll.1]) hlt2 hchar2
              obtain ⟨s3, hrun3, hsrc3, hstart3, htok3, herr3, hline3, hcur3⟩ :=
                Scanner.line_comment_spec
                  { s with start := s.current, current := s.current + 2 }
              simp only at hsrc3 hstart3 htok3 herr3 hline3 hcur3
              have hres3 : s.source.drop s3.current = cs2.dropWhile (fun x => x != '\n') := by
                rw [hcur3, drop_add_length_takeWhile, hdrop2]
              have htw := length_takeWhile_drop_le (fun x => x != '\n') s.source (s.current + 2)
              obtain ⟨s', hrun, htok, herr⟩ := ih f s3
                (by rw [hsrc3, hcur3]; omega) (by rw [hsrc3, hcur3]; omega)
                (by rw [hsrc3, hres3]; exact htr)
              refine ⟨s', ?_, by rw [htok, htok3], by rw [herr, herr3]⟩
              unfold Scanner.scan_loop
              rw [if_neg haen]
              simp only [hst, hrun3]
              exact hrun
          · by_cases hlb : c = '/' ∧ cs.head? = some '*'
            · rw [if_neg hll, if_pos hlb] at htr
              cases cs with
              | nil => exact absurd hlb.2 (by simp)
              | cons d cs2 =>
                have hd : d = '*' := by simpa using hlb.2
                have hlt2 : s.current + 1 < s.source.length := by
                  by_contra hge
                  rw [List.drop_eq_nil_of_le (by omega)] at hdrop1
                  cases hdrop1
                have hchar2 : s.source[s.current + 1] = '*' := by
                  have := (drop_cons hdrop1).1
                  rw [List.getElem?_eq_getElem hlt2] at this
                  rw [Option.some.inj this, hd]
                have hdrop2 : s.source.drop (s.current + 2) = cs2 := by
                  have := (drop_cons hdrop1).2
                  rwa [show s.current + 1 + 1 = s.current + 2 by omega] at this
                simp only [List.drop_one, List.tail_cons] at htr
                have hst := Scanner.scan_token_bc { s with start := s.current } hlt
                  (by show s.source[s.current] = '/'; rw [hchar, hlb.1]) hlt2 hchar2
                obtain ⟨s4, hrun4, hsrc4, hstart4, htok4, herr4, hmono4, hbound4, htr4⟩ :=
                  Scanner.block_trivia_aux s.source.length
                    { s with start := s.current, current := s.current + 2 } 0
                    (Nat.sub_le _ _)
                    (by show trivia_scan (s.source.drop (s.current + 2)) 1 = true
                        rw [hdrop2]; exact htr)
                simp only at hsrc4 hstart4 htok4 herr4 hmono4 hbound4 htr4
                obtain ⟨s', hrun, htok, herr⟩ := ih f s4
                  (by rw [hsrc4]; omega) (by rw [hsrc4]; omega)
                  (by rw [hsrc4]; exact htr4)
                refine ⟨s', ?_, by rw [htok, htok4], by rw [herr, herr4]⟩
                unfold Scanner.scan_loop
                rw [if_neg haen]
                simp only [hst, Scanner.block_comment, hrun4]
                exact hrun
            · rw [if_neg hll, if_neg hlb] at htr
              exact absurd htr (by decide)

/-- The function `scan_token` at end of input propagates the out-of-bounds panic. -/
theorem Scanner.scan_token_none {s : Scanner} (h : s.source.length ≤ s.current) :
    s.scan_token = none := by
  unfold Scanner.scan_token
  unfold Scanner.advance
  rw [List.getElem?_eq_none h]

/-! ## The claims -/

/-- Claim C2: for every source string, the token sequence returned by
`scan_tokens` ends with one End-of-Input token with empty lexeme, no
literal and the final `line` value, and no other token is End-of-Input. -/
theorem eof_sentinel_unique (src : List Char) :
    ∃ out, scan src = some out ∧
      ∃ pre, out.tokens = pre ++ [⟨.Eof, [], none, out.line⟩] ∧
        ∀ t ∈ pre, t.token_type ≠ .Eof := by
  obtain ⟨out, hrun, hsrc, hcur, hline, pre, htok, hgood⟩ := scan_spec src
  exact ⟨out, hrun, pre, htok, fun t ht => (hgood t ht).1⟩

/-- Claim C3: scanning a source consisting only of whitespace, line
comments and balanced block comments yields exactly the End-of-Input
token. -/
theorem whitespace_comments_only_eof (src : List Char)
    (htrivia : trivia_only src = true) :
    ∃ out, scan src = some out ∧ out.tokens = [⟨.Eof, [], none, out.line⟩] := by
  obtain ⟨s1, hrun, htok, herr⟩ :=
    Scanner.scan_trivia_aux src.length (src.length - 0) (Scanner.new src)
      (by simp [Scanner.new]) (by simp [Scanner.new]) (by simpa [Scanner.new] using htrivia)
  refine ⟨{ s1 with tokens := s1.tokens ++ [⟨.Eof, [], none, s1.line⟩] }, ?_, ?_⟩
  · unfold scan Scanner.scan_tokens
    have : (Scanner.new src).source.length - (Scanner.new src).current = src.length - 0 := by
      simp [Scanner.new]
    rw [this]
    simp only [hrun]
  · show s1.tokens ++ [⟨.Eof, [], none, s1.line⟩] = [⟨.Eof, [], none, s1.line⟩]
    rw [htok]
    simp [Scanner.new]

/-- Witness for C3 at a concrete all-trivia source mixing whitespace, a
line comment and a nested block comment. -/
theorem whitespace_comments_only_eof_witness :
    ∃ out, scan " \t\r\n// hi\n/* a /* b */ c */ ".toList = some out ∧
      out.tokens = [⟨.Eof, [], none, out.line⟩] :=
  whitespace_comments_only_eof _ (by simp [trivia_only, trivia_scan])

/-- Claim C4: the line counter ends at one plus the newline count of the
whole source, and each dispatch step increases `line` exactly by the
number of newlines it consumed (in particular it never decreases). -/
theorem line_counter_claim :
    (∀ src : List Char, ∃ out, scan src = some out ∧
      out.line = 1 + src.count '\n') ∧
    (∀ s s' : Scanner, Scanner.scan_token s = some s' →
      s'.line + nl s.source s.current = s.line + nl s.source s'.current ∧
        s.line ≤ s'.line) := by
  constructor
  · intro src
    obtain ⟨out, hrun, hsrc, hcur, hline, pre, htok, hgood⟩ := scan_spec src
    exact ⟨out, hrun, hline⟩
  · intro s s' h
    by_cases hlt : s.current < s.source.length
    · obtain ⟨s2, hrun, hsrc, hstart, hmono, hbound, hline, herr, htoks⟩ :=
        Scanner.scan_token_spec s hlt
      rw [h] at hrun
      obtain rfl : s' = s2 := Option.some.inj hrun
      refine ⟨hline, ?_⟩
      have := nl_mono s.source (le_of_lt hmono)
      omega
    · rw [Scanner.scan_token_none (by omega)] at h
      cases h

/-- Witness for C4's step clause on a one-newline source. -/
theorem line_counter_claim_witness :
    (⟨['\n'], [], 0, 1, 2, []⟩ : Scanner).line + nl ['\n'] 0 =
      (⟨['\n'], [], 0, 0, 1, []⟩ : Scanner).line + nl ['\n'] 1 ∧
    (⟨['\n'], [], 0, 0, 1, []⟩ : Scanner).line ≤ (⟨['\n'], [], 0, 1, 2, []⟩ : Scanner).line :=
  line_counter_claim.2 ⟨['\n'], [], 0, 0, 1, []⟩ ⟨['\n'], [], 0, 1, 2, []⟩
    (by simp [Scanner.scan_token, Scanner.advance])

/-- Claim C8: a token's literal is present exactly for the String,
Number, True, False and Nil kinds, with the matching decoded shape
(`LitOk`), over the whole output including the End-of-Input token. -/
theorem literal_presence_claim (src : List Char) :
    ∃ out, scan src = some out ∧ ∀ t ∈ out.tokens, LitOk t := by
  obtain ⟨out, hrun, hsrc, hcur, hline, pre, htok, hgood⟩ := scan_spec src
  refine ⟨out, hrun, ?_⟩
  intro t ht
  rw [htok] at ht
  rcases List.mem_append.mp ht with hpre | heof
  · exact (hgood t hpre).2
  · rcases List.mem_singleton.mp heof with rfl
    show (⟨.Eof, [], none, out.line⟩ : Token).literal = none
    rfl

/-- Claim C9: scanning always terminates with a result, because every
dispatch step of the main loop strictly advances the cursor within
bounds. -/
theorem scan_terminates_claim :
    (∀ src : List Char, ∃ out, scan src = some out) ∧
    (∀ s : Scanner, s.current < s.source.length →
      ∃ s', s.scan_token = some s' ∧ s.current < s'.current ∧
        s'.current ≤ s.source.length ∧ s'.source = s.source) := by
  constructor
  · intro src
    obtain ⟨out, hrun, _⟩ := scan_spec src
    exact ⟨out, hrun⟩
  · intro s hlt
    obtain ⟨s2, hrun, hsrc, hstart, hmono, hbound, hline, herr, htoks⟩ :=
      Scanner.scan_token_spec s hlt
    exact ⟨s2, hrun, hmono, hbound, hsrc⟩

/-- Witness for C9's progress clause on a one-character source. -/
theorem scan_terminates_claim_witness :
    ∃ s', Scanner.scan_token ⟨['+'], [], 0, 0, 1, []⟩ = some s' ∧
      (⟨['+'], [], 0, 0, 1, []⟩ : Scanner).current < s'.current ∧
      s'.current ≤ (⟨['+'], [], 0, 0, 1, []⟩ : Scanner).source.length ∧
      s'.source = (⟨['+'], [], 0, 0, 1, []⟩ : Scanner).source :=
  scan_terminates_claim.2 ⟨['+'], [], 0, 0, 1, []⟩ (by decide)

/-- Claim C10: the scan never takes the out-of-bounds branch of any
source indexing: on every input the whole scan returns a value. -/
theorem scan_no_panic_claim (src : List Char) : (scan src).isSome = true := by
  obtain ⟨out, hrun, _⟩ := scan_spec src
  rw [hrun]
  rfl

/-- Counterexample to claim C1 as stated: on the source `"a\nb"` (a
string literal spanning a newline) the emitted String token carries
`line = 2`, while its first character, the opening quote at index 0, lies
on line `1 + nl src 0 = 1`. -/
theorem token_line_first_char_cex :
    (scan ['"', 'a', '\n', 'b', '"']).map (fun o => o.tokens) =
      some [⟨.String, ['"', 'a', '\n', 'b', '"'], some (.Str ['a', '\n', 'b']), 2⟩,
            ⟨.Eof, [], none, 2⟩] ∧
    1 + nl ['"', 'a', '\n', 'b', '"'] 0 = 1 ∧ (2 : Nat) ≠ 1 := by
  refine ⟨?_, by simp [nl], by decide⟩
  simp [scan, Scanner.scan_tokens, Scanner.scan_loop, Scanner.scan_token, Scanner.new,
    Scanner.advance, Scanner.string, Scanner.string_loop, Scanner.peek, Scanner.peek_next,
    Scanner.is_at_end, Scanner.add_token_with_literal, Scanner.add_token]

/-- Claim C1 as amended: a token emitted by one dispatch step (from a
cursor whose line counter is in sync) carries the 1-based line of its
first character plus the number of newlines inside its lexeme — i.e. the
line of its last character, which coincides with the first character's
line for every token whose lexeme spans no newline. -/
theorem token_line_amended (s : Scanner) (hlt : s.current < s.source.length)
    (hsync : s.line = 1 + nl s.source s.current) :
    ∀ s' t, Scanner.scan_token { s with start := s.current } = some s' →
      t ∈ s'.tokens.drop s.tokens.length →
      t.line = (1 + nl s.source s.current) + t.lexeme.count '\n' := by
  intro s' t hrun ht
  obtain ⟨s2, hrun2, hsrc, hstart, hmono, hbound, hline, herr, htoks⟩ :=
    Scanner.scan_token_spec { s with start := s.current } hlt
  simp only at hsrc hstart hmono hbound hline herr htoks
  rw [hrun] at hrun2
  obtain rfl : s' = s2 := Option.some.inj hrun2
  rcases htoks with hsame | ⟨t0, htok0, hne0, hlit0, hline0, hlex0⟩
  · rw [hsame, List.drop_length] at ht
    cases ht
  · rw [htok0, List.drop_left] at ht
    rcases List.mem_singleton.mp ht with rfl
    have hseg : ((s.source.take s'.current).drop s.current).count '\n' +
        nl s.source s.current = nl s.source s'.current :=
      by have := nl_add_seg s.source (le_of_lt hmono); omega
    rw [hline0, hlex0]
    omega

/-- Witness for the amended C1 on the multi-line string source. -/
theorem token_line_amended_witness :
    (⟨.String, ['"', 'a', '\n', 'b', '"'], some (.Str ['a', '\n', 'b']), 2⟩ : Token).line =
      (1 + nl ['"', 'a', '\n', 'b', '"'] 0) +
        (⟨.String, ['"', 'a', '\n', 'b', '"'], some (.Str ['a', '\n', 'b']), 2⟩ :
          Token).lexeme.count '\n' :=
  token_line_amended ⟨['"', 'a', '\n', 'b', '"'], [], 0, 0, 1, []⟩ (by decide)
    (by simp [nl])
    ⟨['"', 'a', '\n', 'b', '"'],
      [⟨.String, ['"', 'a', '\n', 'b', '"'], some (.Str ['a', '\n', 'b']), 2⟩], 0, 5, 2, []⟩
    ⟨.String, ['"', 'a', '\n', 'b', '"'], some (.Str ['a', '\n', 'b']), 2⟩
    (by simp [Scanner.scan_token, Scanner.advance, Scanner.string, Scanner.string_loop,
      Scanner.peek, Scanner.is_at_end, Scanner.add_token_with_literal])
    (by simp)

/-- Claim C5: the number consumer takes a maximal digit run (the residue
after the digit loop starts with a non-digit), takes a fractional part
only when a digit follows the dot, and decodes the span: `"123.45"`
yields one Number token with lexeme `"123.45"` and literal
`Number 123.45` (at the exact decimal value), while `"123."` yields the
Number token `"123"` followed by a separate Dot token. -/
theorem number_consumer_claim :
    (∀ s s' : Scanner, Scanner.digits_loop s = some s' →
      s'.source = s.source ∧
        s'.source.drop s'.current = (s.source.drop s.current).dropWhile Char.isDigit) ∧
    (scan "123.45".toList).map (fun o => o.tokens) =
      some [⟨.Number, "123.45".toList, some (.Number (123.45 : ℚ)), 1⟩,
            ⟨.Eof, [], none, 1⟩] ∧
    (scan "123.".toList).map (fun o => o.tokens) =
      some [⟨.Number, "123".toList, some (.Number (123 : ℚ)), 1⟩,
            ⟨.Dot, ['.'], none, 1⟩, ⟨.Eof, [], none, 1⟩] := by
  refine ⟨?_, ?_, ?_⟩
  · intro s s' h
    obtain ⟨s2, hrun, hsrc, hstart, htok, herr, hline, hcur⟩ := Scanner.digits_loop_spec s
    rw [h] at hrun
    obtain rfl : s' = s2 := Option.some.inj hrun
    refine ⟨hsrc, ?_⟩
    rw [hsrc, hcur, drop_add_length_takeWhile]
  · simp [scan, Scanner.scan_tokens, Scanner.scan_loop, Scanner.scan_token, Scanner.new,
      Scanner.advance, Scanner.number, Scanner.digits_loop, Scanner.peek, Scanner.peek_next,
      Scanner.is_at_end, Scanner.add_token_with_literal, Scanner.add_token, parse_f64,
      digits_value, List.takeWhile, List.dropWhile]
    norm_num
  · simp [scan, Scanner.scan_tokens, Scanner.scan_loop, Scanner.scan_token, Scanner.new,
      Scanner.advance, Scanner.number, Scanner.digits_loop, Scanner.peek, Scanner.peek_next,
      Scanner.is_at_end, Scanner.add_token_with_literal, Scanner.add_token, parse_f64,
      digits_value, List.takeWhile, List.dropWhile]

/-- Witness for C5's maximal-run clause on a digit before a letter. -/
theorem number_consumer_claim_witness :
    (⟨['7', 'x'], [], 0, 1, 1, []⟩ : Scanner).source =
      (⟨['7', 'x'], [], 0, 0, 1, []⟩ : Scanner).source ∧
    (⟨['7', 'x'], [], 0, 1, 1, []⟩ : Scanner).source.drop
        (⟨['7', 'x'], [], 0, 1, 1, []⟩ : Scanner).current =
      ((⟨['7', 'x'], [], 0, 0, 1, []⟩ : Scanner).source.drop
        (⟨['7', 'x'], [], 0, 0, 1, []⟩ : Scanner).current).dropWhile Char.isDigit :=
  number_consumer_claim.1 ⟨['7', 'x'], [], 0, 0, 1, []⟩ ⟨['7', 'x'], [], 0, 1, 1, []⟩
    (by simp [Scanner.digits_loop, Scanner.advance, Scanner.peek, Scanner.is_at_end])

/-- Claim C6: the block comment consumer counts nesting from 1 (opening
at `/ *`, closing at `* /`); it never emits a token, and it appends a
diagnostic — exactly one, "Unterminated block comment", at the current
line — only when it ran off the end of the input, as on
`"/* unterminated"`; on balanced nesting such as `"/* a /* b */ c */"`
it emits nothing and reports nothing. -/
theorem block_comment_claim :
    (∀ s : Scanner, s.block_comment = s.block_comment_loop 1) ∧
    (∀ (s : Scanner) (n : Nat) (s' : Scanner), s.block_comment_loop n = some s' →
      s'.tokens = s.tokens ∧
        (s'.errors = s.errors ∨
          (s'.errors = s.errors ++ [(s'.line, "Unterminated block comment")] ∧
            s.source.length ≤ s'.current))) ∧
    (scan "/* a /* b */ c */".toList).map (fun o => (o.tokens, o.errors)) =
      some ([⟨.Eof, [], none, 1⟩], []) ∧
    (scan "/* unterminated".toList).map (fun o => (o.tokens, o.errors)) =
      some ([⟨.Eof, [], none, 1⟩], [(1, "Unterminated block comment")]) := by
  refine ⟨fun s => rfl, ?_, ?_, ?_⟩
  · intro s n s' h
    obtain ⟨s2, hrun, hsrc, hstart, htok, hmono, hbound, hline, herr⟩ :=
      Scanner.block_comment_loop_spec s n
    rw [h] at hrun
    obtain rfl : s' = s2 := Option.some.inj hrun
    exact ⟨htok, herr⟩
  · simp [scan, Scanner.scan_tokens, Scanner.scan_loop, Scanner.scan_token, Scanner.new,
      Scanner.advance, Scanner.match_char, Scanner.block_comment, Scanner.block_comment_loop,
      Scanner.peek, Scanner.peek_next, Scanner.is_at_end, Scanner.add_token_with_literal,
      Scanner.add_token, Scanner.error]
  · simp [scan, Scanner.scan_tokens, Scanner.scan_loop, Scanner.scan_token, Scanner.new,
      Scanner.advance, Scanner.match_char, Scanner.block_comment, Scanner.block_comment_loop,
      Scanner.peek, Scanner.peek_next, Scanner.is_at_end, Scanner.add_token_with_literal,
      Scanner.add_token, Scanner.error]

/-- Witness for C6's loop clause on an immediately closed comment body. -/
theorem block_comment_claim_witness :
    (⟨['*', '/'], [], 0, 2, 1, []⟩ : Scanner).tokens =
      (⟨['*', '/'], [], 0, 0, 1, []⟩ : Scanner).tokens ∧
    ((⟨['*', '/'], [], 0, 2, 1, []⟩ : Scanner).errors =
        (⟨['*', '/'], [], 0, 0, 1, []⟩ : Scanner).errors ∨
      ((⟨['*', '/'], [], 0, 2, 1, []⟩ : Scanner).errors =
          (⟨['*', '/'], [], 0, 0, 1, []⟩ : Scanner).errors ++
            [((⟨['*', '/'], [], 0, 2, 1, []⟩ : Scanner).line, "Unterminated block comment")] ∧
        (⟨['*', '/'], [], 0, 0, 1, []⟩ : Scanner).source.length ≤
          (⟨['*', '/'], [], 0, 2, 1, []⟩ : Scanner).current)) :=
  block_comment_claim.2.1 ⟨['*', '/'], [], 0, 0, 1, []⟩ 1 ⟨['*', '/'], [], 0, 2, 1, []⟩
    (by simp [Scanner.block_comment_loop, Scanner.advance, Scanner.peek, Scanner.peek_next,
      Scanner.is_at_end])

/-- Taking one character past the maximal `(· != c)` block of a list
containing `c` yields that block closed by `c`. -/
theorem take_succ_length_takeWhile_ne {u : List Char} {c : Char} (h : c ∈ u) :
    u.take ((u.takeWhile (fun x => x != c)).length + 1) =
      u.takeWhile (fun x => x != c) ++ [c] := by
  induction u with
  | nil => cases h
  | cons d ds ih =>
    by_cases hdc : d = c
    · subst hdc
      rw [List.takeWhile_cons]
      simp
    · have hin : c ∈ ds := by
        rcases List.mem_cons.mp h with h1 | h1
        · exact absurd h1.symm hdc
        · exact h1
      rw [List.takeWhile_cons, if_pos (bne_iff_ne.mpr hdc), List.length_cons,
        List.take_succ_cons, ih hin]
      simp

/-- Claim C7: `Scanner::string`, entered with `start` on the opening
quote and `current` just past it: if a closing quote exists it emits one
String token whose lexeme is the full quoted span including both quotes
and whose literal is exactly the characters strictly between the quotes
(taken verbatim from the source, so backslashes stay literal), reporting
nothing; if the source ends first it emits no token and reports one
"Unterminated string" diagnostic. -/
theorem string_consumer_claim (s : Scanner)
    (hq : s.source[s.start]? = some '"') (hcur : s.current = s.start + 1) :
    ∃ s', Scanner.string s = some s' ∧
      (if '"' ∈ s.source.drop s.current then
        s'.errors = s.errors ∧
        s'.tokens = s.tokens ++
          [⟨.String,
            '"' :: ((s.source.drop s.current).takeWhile (fun c => c != '"') ++ ['"']),
            some (.Str ((s.source.drop s.current).takeWhile (fun c => c != '"'))),
            s'.line⟩]
      else
        s'.tokens = s.tokens ∧
        s'.errors = s.errors ++ [(s'.line, "Unterminated string")]) := by
  obtain ⟨s1, hrun, hsrc, hstart, hmono, hbound, hline, hrest⟩ := Scanner.string_spec s
  by_cases hmem : '"' ∈ s.source.drop s.current
  · rw [if_pos hmem] at hrest
    obtain ⟨herr, hcur1, htok⟩ := hrest
    have hstart_lt : s.start < s.source.length := (List.getElem?_eq_some.mp hq).1
    have hqc : s.source[s.start] = '"' := by
      rw [List.getElem?_eq_getElem hstart_lt] at hq
      exact Option.some.inj hq
    have hc1 : s1.current =
        s.start + 1 + ((s.source.drop s.current).takeWhile (fun c => c != '"')).length + 1 := by
      rw [hcur1, hcur]
    have hseg2 : (s.source.take s1.current).drop (s.start + 1) =
        (s.source.drop s.current).takeWhile (fun c => c != '"') ++ ['"'] := by
      rw [List.drop_take,
        show s1.current - (s.start + 1) =
          ((s.source.drop s.current).takeWhile (fun c => c != '"')).length + 1 from by omega,
        ← hcur]
      exact take_succ_length_takeWhile_ne hmem
    have hlex : (s.source.take s1.current).drop s.start =
        '"' :: ((s.source.drop s.current).takeWhile (fun c => c != '"') ++ ['"']) := by
      rw [seg_cons s.source (by omega) hstart_lt, hqc, hseg2]
    have hlit : (s.source.take (s1.current - 1)).drop (s.start + 1) =
        (s.source.drop s.current).takeWhile (fun c => c != '"') := by
      rw [List.drop_take,
        show s1.current - 1 - (s.start + 1) =
          ((s.source.drop s.current).takeWhile (fun c => c != '"')).length from by omega,
        ← hcur]
      exact take_length_takeWhile _ _
    refine ⟨s1, hrun, ?_⟩
    rw [if_pos hmem, htok, hlex, hlit]
    exact ⟨herr, rfl⟩
  · rw [if_neg hmem] at hrest
    refine ⟨s1, hrun, ?_⟩
    rw [if_neg hmem]
    exact hrest

/-- Witness for C7 on `"ab"` (terminated string). -/
theorem string_consumer_claim_witness :
    ∃ s', Scanner.string ⟨['"', 'a', 'b', '"'], [], 0, 1, 1, []⟩ = some s' ∧
      (if '"' ∈ (⟨['"', 'a', 'b', '"'], [], 0, 1, 1, []⟩ : Scanner).source.drop
          (⟨['"', 'a', 'b', '"'], [], 0, 1, 1, []⟩ : Scanner).current then
        s'.errors = (⟨['"', 'a', 'b', '"'], [], 0, 1, 1, []⟩ : Scanner).errors ∧
        s'.tokens = (⟨['"', 'a', 'b', '"'], [], 0, 1, 1, []⟩ : Scanner).tokens ++
          [⟨.String,
            '"' :: ((((⟨['"', 'a', 'b', '"'], [], 0, 1, 1, []⟩ : Scanner).source.drop
              (⟨['"', 'a', 'b', '"'], [], 0, 1, 1, []⟩ : Scanner).current).takeWhile
                (fun c => c != '"')) ++ ['"']),
            some (.Str (((⟨['"', 'a', 'b', '"'], [], 0, 1, 1, []⟩ : Scanner).source.drop
              (⟨['"', 'a', 'b', '"'], [], 0, 1, 1, []⟩ : Scanner).current).takeWhile
                (fun c => c != '"'))),
            s'.line⟩]
      else
        s'.tokens = (⟨['"', 'a', 'b', '"'], [], 0, 1, 1, []⟩ : Scanner).tokens ∧
        s'.errors = (⟨['"', 'a', 'b', '"'], [], 0, 1, 1, []⟩ : Scanner).errors ++
          [(s'.line, "Unterminated string")]) :=
  string_consumer_claim ⟨['"', 'a', 'b', '"'], [], 0, 1, 1, []⟩ (by simp) rfl
